import Mathlib

/-!
Verification of the tag-driven code-block extraction and query-matching
engine of `simple-code-reader-mcp` (src/index.ts).

Strings are modelled as `List Char` (`Str`). Every definition in the
`SCReader` namespace is a shallow embedding of the corresponding
JavaScript/TypeScript function from the source, translated line by line;
definitions whose names start with `spec` or `claim` instead follow the
wording of the natural-language specification and are compared with the
source-side definitions by theorems.

JavaScript regular expressions appearing in the source are embedded via a
small nondeterministic matcher (`Regex`, `reMatch`) that returns the set of
end positions of a match starting at a given position; this is equivalent
to backtracking for the purpose of `RegExp.test`. Character classes model
the ASCII behaviour of `\s`, `\w` and friends; Unicode-only whitespace
code points are outside the model.
-/

namespace SCReader

/-- Strings of the modelled program: lists of characters. -/
abbrev Str := List Char

/-- ASCII whitespace recognized by JavaScript `\s` and `String.trim`. -/
def jsWsChar (c : Char) : Bool :=
  c = ' ' || c = '\t' || c = '\n' || c = '\r' || c = Char.ofNat 11 || c = Char.ofNat 12

/-- JavaScript `\w`: ASCII letters, digits and underscore. -/
def jsWordChar (c : Char) : Bool :=
  c.isAlpha || c.isDigit || c = '_'

/-- The character class `[A-Za-z_$]` used for identifier starts. -/
def identStartChar (c : Char) : Bool :=
  c.isAlpha || c = '_' || c = '$'

/-- The character class `[\w$]` used for identifier continuations. -/
def identChar (c : Char) : Bool :=
  jsWordChar c || c = '$'

/-- The character class `[a-zA-Z0-9_-]` of the tag-annotation grammar. -/
def scopeNameChar (c : Char) : Bool :=
  c.isAlpha || c.isDigit || c = '_' || c = '-'

/-- JavaScript `String.prototype.trim` on ASCII input: drop leading and
trailing whitespace. -/
def jsTrim (cs : Str) : Str :=
  ((cs.dropWhile jsWsChar).reverse.dropWhile jsWsChar).reverse

/-- Split a string at every separator character (JavaScript
`String.prototype.split` with a single-character-class separator). -/
def splitOnP (p : Char → Bool) : Str → List Str
  | [] => [[]]
  | c :: rest =>
    if p c then [] :: splitOnP p rest
    else
      match splitOnP p rest with
      | [] => [[c]]
      | s :: ss => (c :: s) :: ss

/-- JavaScript `content.split("\n")`. -/
def splitLines (cs : Str) : List Str :=
  splitOnP (fun c => c = '\n') cs

/-- JavaScript `String.prototype.includes`: the needle occurs as a
contiguous substring of the haystack. -/
def jsIncludes (hay needle : Str) : Bool :=
  (List.range (hay.length + 1)).any (fun i => needle.isPrefixOf (hay.drop i))

/-- JavaScript `String.prototype.replace` with a plain-string pattern and
empty replacement: delete the leftmost occurrence of the pattern. -/
def jsReplaceOnce (hay pat : Str) : Str :=
  match (List.range (hay.length + 1)).find? (fun i => pat.isPrefixOf (hay.drop i)) with
  | some i => hay.take i ++ hay.drop (i + pat.length)
  | none => hay

/-! ## A tiny regular-expression engine

`reMatch cs r i` returns every position `j` such that the regex `r`
matches the slice of `cs` from `i` to `j`. Stars only ever range over
single character classes in the source's patterns, which keeps the
matcher structurally recursive. `wb` is the JavaScript word boundary
`\b`, which inspects the characters on both sides of a position. -/

/-- Abstract syntax of the regular-expression fragment used by the source. -/
inductive Regex where
  | eps : Regex
  | cls (p : Char → Bool) : Regex
  | seq (a b : Regex) : Regex
  | alt (a b : Regex) : Regex
  | star (p : Char → Bool) : Regex
  | opt (a : Regex) : Regex
  | wb : Regex

/-- The character of `cs` at position `i`, if any. -/
def charAt (cs : Str) (i : Nat) : Option Char :=
  cs[i]?

/-- End positions of `p*` matches that start at position `i`, where
`suffix` is `cs.drop i`. -/
def starPos (p : Char → Bool) : Str → Nat → List Nat
  | [], i => [i]
  | c :: rest, i => i :: (if p c then starPos p rest (i + 1) else [])

/-- Whether the character (if any) at position `i` of `cs` is a word
character; used by the word-boundary test. -/
def wordAt (cs : Str) (i : Nat) : Bool :=
  match charAt cs i with
  | some c => jsWordChar c
  | none => false

/-- All end positions of matches of a regex starting at position `i`. -/
def reMatch (cs : Str) : Regex → Nat → List Nat
  | .eps, i => [i]
  | .cls p, i =>
    match charAt cs i with
    | some c => if p c then [i + 1] else []
    | none => []
  | .seq a b, i => ((reMatch cs a i).flatMap (reMatch cs b)).dedup
  | .alt a b, i => (reMatch cs a i ++ reMatch cs b i).dedup
  | .star p, i => starPos p (cs.drop i) i
  | .opt a, i => (i :: reMatch cs a i).dedup
  | .wb, i =>
    let prevW := match i with
      | 0 => false
      | j + 1 => wordAt cs j
    if prevW ≠ wordAt cs i then [i] else []

/-- `RegExp.test` for a `^`-anchored regular expression. -/
def anchoredTest (r : Regex) (cs : Str) : Bool :=
  !(reMatch cs r 0).isEmpty

/-- `RegExp.test` for an unanchored regular expression: some match starts
at some position. -/
def unanchTest (r : Regex) (cs : Str) : Bool :=
  (List.range (cs.length + 1)).any (fun i => !(reMatch cs r i).isEmpty)

/-- A literal string as a regex: a sequence of single-character classes. -/
def rexLit : Str → Regex
  | [] => .eps
  | c :: rest => .seq (.cls (fun d => d = c)) (rexLit rest)

/-- The regex `\s*`. -/
def wsStar : Regex := .star jsWsChar

/-- The regex `\s+`. -/
def wsPlus : Regex := .seq (.cls jsWsChar) (.star jsWsChar)

/-- The regex `(word\s+)?` used for optional leading keywords. -/
def optKw (s : Str) : Regex := .opt (.seq (rexLit s) wsPlus)

/-- The regex `[A-Za-z_$][\w$]*`: a JavaScript identifier. -/
def identRex : Regex := .seq (.cls identStartChar) (.star identChar)

/-- The regex `\([^)]*\)`: a parenthesized group with no nested `)`. -/
def parenRex : Regex :=
  .seq (.cls (fun c => c = '(')) (.seq (.star (fun c => !(c = ')'))) (.cls (fun c => c = ')')))

/-- The character class `[:<\w\s,<>.?=&[\]{}().]` of the variable-assigned
arrow pattern. -/
def p6Class (c : Char) : Bool :=
  jsWordChar c || jsWsChar c || c = ':' || c = '<' || c = ',' || c = '>' ||
    c = '.' || c = '?' || c = '=' || c = '&' || c = '[' || c = ']' ||
    c = '\x7b' || c = '\x7d' || c = '(' || c = ')'

/-- The alternative `(function|class|interface|enum|type|namespace|module)`. -/
def keywordAlt : Regex :=
  .alt (rexLit "function".data) (.alt (rexLit "class".data)
    (.alt (rexLit "interface".data) (.alt (rexLit "enum".data)
      (.alt (rexLit "type".data) (.alt (rexLit "namespace".data)
        (rexLit "module".data))))))

/-- The alternative `(abstract|final|sealed|base)`. -/
def classModAlt : Regex :=
  .alt (rexLit "abstract".data) (.alt (rexLit "final".data)
    (.alt (rexLit "sealed".data) (rexLit "base".data)))

/-- The alternative `(const|let|var)`. -/
def cvlAlt : Regex :=
  .alt (rexLit "const".data) (.alt (rexLit "let".data) (rexLit "var".data))

/-- The alternative `(\([^)]*\)|[A-Za-z_$][\w$]*)` of arrow parameters. -/
def arrowLhs : Regex := .alt parenRex identRex

/-- Pattern 1: `^\s*(export\s+)?(default\s+)?(async\s+)?(function|class|interface|enum|type|namespace|module)\b`. -/
def pat1 : Regex :=
  .seq wsStar (.seq (optKw "export".data) (.seq (optKw "default".data)
    (.seq (optKw "async".data) (.seq keywordAlt .wb))))

/-- Pattern 2: `^\s*(abstract|final|sealed|base)\s+class\b`. -/
def pat2 : Regex :=
  .seq wsStar (.seq classModAlt (.seq wsPlus (.seq (rexLit "class".data) .wb)))

/-- Pattern 3: `^\s*mixin\b`. -/
def pat3 : Regex := .seq wsStar (.seq (rexLit "mixin".data) .wb)

/-- Pattern 4: `^\s*extension\b`. -/
def pat4 : Regex := .seq wsStar (.seq (rexLit "extension".data) .wb)

/-- Pattern 5: `^\s*(async\s+)?function\b`. -/
def pat5 : Regex :=
  .seq wsStar (.seq (optKw "async".data) (.seq (rexLit "function".data) .wb))

/-- Pattern 6: `^\s*(export\s+)?(const|let|var)\s+[A-Za-z_$][\w$]*\s*[:<\w\s,<>.?=&[\]{}().]*=\s*(async\s+)?(\([^)]*\)|[A-Za-z_$][\w$]*)\s*=>`. -/
def pat6 : Regex :=
  .seq wsStar (.seq (optKw "export".data) (.seq cvlAlt (.seq wsPlus
    (.seq identRex (.seq wsStar (.seq (.star p6Class)
      (.seq (rexLit "=".data) (.seq wsStar (.seq (optKw "async".data)
        (.seq arrowLhs (.seq wsStar (rexLit "=>".data))))))))))))

/-- Pattern 7: `^\s*(export\s+)?(const|let|var)\s+[A-Za-z_$][\w$]*\s*=\s*function\b`. -/
def pat7 : Regex :=
  .seq wsStar (.seq (optKw "export".data) (.seq cvlAlt (.seq wsPlus
    (.seq identRex (.seq wsStar (.seq (rexLit "=".data)
      (.seq wsStar (.seq (rexLit "function".data) .wb))))))))

/-- Pattern 8: `^\s*[A-Za-z_$][\w$]*\s*:\s*(async\s+)?(function\b|\([^)]*\)\s*=>|\([^)]*\)\s*\{)`. -/
def pat8 : Regex :=
  .seq wsStar (.seq identRex (.seq wsStar (.seq (rexLit ":".data)
    (.seq wsStar (.seq (optKw "async".data)
      (.alt (.seq (rexLit "function".data) .wb)
        (.alt (.seq parenRex (.seq wsStar (rexLit "=>".data)))
          (.seq parenRex (.seq wsStar (rexLit "\x7b".data))))))))))

/-- Pattern 9: `^\s*export\s+default\s*(async\s+)?(\([^)]*\)|[A-Za-z_$][\w$]*)\s*=>`. -/
def pat9 : Regex :=
  .seq wsStar (.seq (rexLit "export".data) (.seq wsPlus
    (.seq (rexLit "default".data) (.seq wsStar (.seq (optKw "async".data)
      (.seq arrowLhs (.seq wsStar (rexLit "=>".data))))))))

/-- The ordered pattern list of `isCodeBlockStart`. -/
def codeStartPatterns : List Regex :=
  [pat1, pat2, pat3, pat4, pat5, pat6, pat7, pat8, pat9]

/-- Source `isCodeBlockStart`: the line matches one of the nine anchored
construct-start patterns. -/
def isCodeBlockStart (cs : Str) : Bool :=
  codeStartPatterns.any (fun r => anchoredTest r cs)

/-- Source `isCommentLine`: the trimmed line starts with `//`, `/*`, `*`
or `#`. -/
def isCommentLine (cs : Str) : Bool :=
  let t := jsTrim cs
  "//".data.isPrefixOf t || "/*".data.isPrefixOf t ||
    "*".data.isPrefixOf t || "#".data.isPrefixOf t

/-- The decorator test `line.trim().startsWith("@")`. -/
def isDecoratorLine (cs : Str) : Bool :=
  "@".data.isPrefixOf (jsTrim cs)

/-! ## Tag grammar

`tagMatches` embeds the global-exec loop over
`/\[([a-zA-Z0-9_-]+):([^\]]+)\]/g` in `captureTagsFromComment`: scan left
to right for the next match, record the scope and the split tag list, and
continue after the match. Both capture groups are deterministic because
their character classes exclude the character that must follow them. -/

/-- Split a tag list on `,`, `|` or `&`, trim each entry and drop the
empty ones — the `m[2].split(/[,|&]/)` pipeline of the source. -/
def splitTags (inner : Str) : List Str :=
  ((splitOnP (fun c => c = ',' || c = '|' || c = '&') inner).map jsTrim).filter
    (fun t => !t.isEmpty)

/-- Dropping a prefix cannot lengthen a list. -/
theorem dropWhile_len_le {α : Type} (p : α → Bool) (l : List α) :
    (l.dropWhile p).length ≤ l.length := by
  induction l with
  | nil => simp [List.dropWhile]
  | cons a t ih =>
    by_cases h : p a = true <;> simp [List.dropWhile, h] <;> omega

/-- Fueled scanner behind `tagMatches`. Every step consumes at least one
character of the input, so fuel equal to the input length is always
enough; the fuel only makes the recursion structural (and hence
kernel-computable). -/
def tagMatchesF : Nat → Str → List (Str × List Str)
  | 0, _ => []
  | _, [] => []
  | fuel + 1, c :: rest =>
    if c = '[' then
      let scope := rest.takeWhile scopeNameChar
      match rest.dropWhile scopeNameChar with
      | ':' :: r2 =>
        if scope.isEmpty then tagMatchesF fuel rest
        else
          let inner := r2.takeWhile (fun d => !(d = ']'))
          match r2.dropWhile (fun d => !(d = ']')) with
          | ']' :: r4 =>
            if inner.isEmpty then tagMatchesF fuel rest
            else (scope, splitTags inner) :: tagMatchesF fuel r4
          | _ => tagMatchesF fuel rest
      | _ => tagMatchesF fuel rest
    else tagMatchesF fuel rest

/-- All matches of the tag-annotation regex in one line, in order:
pairs of scope name and split tag list. -/
def tagMatches (cs : Str) : List (Str × List Str) :=
  tagMatchesF cs.length cs

/-- JavaScript object assignment `obj[key] = value` on an
insertion-ordered string-keyed record: replace in place if the key is
present, append otherwise. -/
def jsSet (m : List (Str × List Str)) (k : Str) (v : List Str) : List (Str × List Str) :=
  if m.any (fun kv => kv.1 = k) then
    m.map (fun kv => if kv.1 = k then (k, v) else kv)
  else m ++ [(k, v)]

/-- JavaScript object lookup `obj[key]` on the same record model. -/
def jsGet (m : List (Str × List Str)) (k : Str) : Option (List Str) :=
  (m.find? (fun kv => kv.1 = k)).map (fun kv => kv.2)

/-- Source `captureTagsFromComment`: assign every annotation found on the
line into the pending tag record, in match order. -/
def captureTagsFromComment (m : List (Str × List Str)) (text : Str) : List (Str × List Str) :=
  (tagMatches text).foldl (fun acc d => jsSet acc d.1 d.2) m

/-- The record step used by `captureTagsFromComment`, named for lemmas. -/
def setDecl (a : List (Str × List Str)) (d : Str × List Str) : List (Str × List Str) :=
  jsSet a d.1 d.2

/-! ## Query parser and matcher -/

/-- The global combinator of a parsed query. -/
inductive Operator where
  | and : Operator
  | or : Operator
deriving DecidableEq, Repr

/-- One scope requirement of a parsed query. -/
structure QueryScope where
  name : Str
  tags : List Str
deriving DecidableEq, Repr

/-- A parsed query: scope requirements plus the global combinator. -/
structure ParsedQuery where
  scopes : List QueryScope
  operator : Operator
deriving DecidableEq, Repr

/-- All matches of `/\[([^\]]+)\]/g`: the bracket-group contents of the
query string, in order. -/
def bracketGroupsF : Nat → Str → List Str
  | 0, _ => []
  | _, [] => []
  | fuel + 1, c :: rest =>
    if c = '[' then
      let inner := rest.takeWhile (fun d => !(d = ']'))
      match rest.dropWhile (fun d => !(d = ']')) with
      | ']' :: r2 =>
        if inner.isEmpty then bracketGroupsF fuel rest
        else inner :: bracketGroupsF fuel r2
      | _ => bracketGroupsF fuel rest
    else bracketGroupsF fuel rest

/-- The bracket-group contents of a query string, in order (fuel equal to
the length is always enough, as for `tagMatchesF`). -/
def bracketGroups (cs : Str) : List Str :=
  bracketGroupsF cs.length cs

/-- Parse one bracket-group content: split on the first `:` into scope
name and tag string, then split the tag string on `|` or `&`. -/
def scopeOfContent (content : Str) : QueryScope :=
  match splitOnP (fun c => c = ':') content with
  | [] => ⟨[], []⟩
  | scopeName :: tagParts =>
    let tagString := List.intercalate ":".data tagParts
    let tags := ((splitOnP (fun c => c = '|' || c = '&') tagString).map jsTrim).filter
      (fun t => !t.isEmpty)
    ⟨jsTrim scopeName, tags⟩

/-- Source `parseQuery`. -/
def parseQuery (query : Str) : ParsedQuery :=
  let scopes := (bracketGroups query).map scopeOfContent
  let hasAnd := query.contains '&'
  let hasOr := query.contains '|'
  let operator := if hasAnd && !hasOr then Operator.and else Operator.or
  ⟨scopes, operator⟩

/-- The per-requirement test of `matchesQuery`: some alternative tag of
the requirement occurs among the block's declared values for the scope. -/
def scopeSatisfied (blockTags : List (Str × List Str)) (sc : QueryScope) : Bool :=
  sc.tags.any (fun t => ((jsGet blockTags sc.name).getD []).contains t)

/-- Source `matchesQuery`. -/
def matchesQuery (blockTags : List (Str × List Str)) (queryScopes : List QueryScope)
    (operator : Operator) : Bool :=
  if queryScopes.isEmpty then true
  else
    let scopeMatches := queryScopes.map (fun sc => scopeSatisfied blockTags sc)
    match operator with
    | .and => scopeMatches.all (fun b => b)
    | .or => scopeMatches.any (fun b => b)

/-! ## The block-extraction state machine -/

/-- One extracted code block. -/
structure Block where
  code : Str
  tags : List (Str × List Str)
  startLine : Nat
deriving DecidableEq, Repr

/-- The mutable state of the `extractCodeBlocks` loop, one field per
source variable, plus the result list. -/
structure EState where
  inCodeBlock : Bool
  currentBlock : Str
  currentBlockTags : List (Str × List Str)
  blockStartLine : Nat
  pendingCommentBuffer : Str
  pendingTags : List (Str × List Str)
  pendingCommentStartLine : Option Nat
  pendingDecoratorBuffer : Str
  blocks : List Block
deriving DecidableEq, Repr

/-- The initial state of the loop. -/
def initState : EState :=
  ⟨false, [], [], 0, [], [], none, [], []⟩

/-- Reset the four pending fields, as the adjacency-breaking branches of
the source do. -/
def clearPending (s : EState) : EState :=
  { s with pendingCommentBuffer := [], pendingTags := [],
           pendingCommentStartLine := none, pendingDecoratorBuffer := [] }

/-- Source `startNewBlockIfTagged`: open a block from the pending buffers
when pending tags exist, otherwise do nothing. -/
def startNewBlockIfTagged (s : EState) (i : Nat) (line : Str) : EState :=
  if s.pendingTags.isEmpty then s
  else
    { s with
      currentBlock := s.pendingCommentBuffer ++ s.pendingDecoratorBuffer ++ line ++ ['\n'],
      blockStartLine := s.pendingCommentStartLine.getD (i + 1),
      currentBlockTags := s.pendingTags,
      inCodeBlock := true,
      pendingCommentBuffer := [], pendingTags := [],
      pendingCommentStartLine := none, pendingDecoratorBuffer := [] }

/-- The not-in-a-block part of the loop body (the comment, decorator,
construct-start, decorator-accumulation and adjacency-reset branches, in
source order). -/
def stepIdle (s : EState) (i : Nat) (line : Str) : EState :=
  if isCommentLine line then
    { s with
      pendingCommentStartLine :=
        if s.pendingCommentBuffer.isEmpty then some (i + 1) else s.pendingCommentStartLine,
      pendingCommentBuffer := s.pendingCommentBuffer ++ line ++ ['\n'],
      pendingTags := captureTagsFromComment s.pendingTags line }
  else if isDecoratorLine line ∧ (s.pendingCommentBuffer ≠ [] ∨ s.pendingTags ≠ []) then
    { s with pendingDecoratorBuffer := s.pendingDecoratorBuffer ++ line ++ ['\n'] }
  else if isCodeBlockStart line then
    let s' := startNewBlockIfTagged s i line
    if s'.inCodeBlock then s' else clearPending s'
  else if s.pendingDecoratorBuffer ≠ [] then
    { s with pendingDecoratorBuffer := s.pendingDecoratorBuffer ++ line ++ ['\n'] }
  else if jsTrim line ≠ [] then clearPending s
  else s

/-- One iteration of the `extractCodeBlocks` loop: while inside a block,
append the line unless it starts a new construct, in which case push the
trimmed block and re-evaluate the same line through the idle branches. -/
def step (s : EState) (i : Nat) (line : Str) : EState :=
  if s.inCodeBlock then
    if isCodeBlockStart line then
      stepIdle
        { s with
          blocks := s.blocks ++ [⟨jsTrim s.currentBlock, s.currentBlockTags, s.blockStartLine⟩],
          currentBlock := [], currentBlockTags := [], inCodeBlock := false }
        i line
    else { s with currentBlock := s.currentBlock ++ line ++ ['\n'] }
  else stepIdle s i line

/-- The fold step over enumerated lines. -/
def stepFn (s : EState) (el : Nat × Str) : EState :=
  step s el.1 el.2

/-- The end-of-file close: push a still-open block whose trimmed text is
non-empty. -/
def finalizeBlocks (s : EState) : List Block :=
  if s.inCodeBlock ∧ jsTrim s.currentBlock ≠ [] then
    s.blocks ++ [⟨jsTrim s.currentBlock, s.currentBlockTags, s.blockStartLine⟩]
  else s.blocks

/-- The state after running the loop over a whole file. -/
def runState (content : Str) : EState :=
  ((splitLines content).enum).foldl stepFn initState

/-- Source `extractCodeBlocks`. -/
def extractCodeBlocks (content : Str) : List Block :=
  finalizeBlocks (runState content)

/-! ## The specification-side extractor

`specIdle`/`specOpen` transcribe the prose description of the extractor
(spec sections 3 and 4.3) as a two-state recursive machine with named
states. A block's code is the pending comment run, then the pending
decorator lines, then the construct line and every following line up to
the next construct start or end of file, trimmed; its start line is where
the comment run began, or the construct line when no comment preceded it;
its tags are the snapshot of the pending tags, which must be non-empty for
a block to open at all. -/

/-- The pending-annotation state of the specification machine. -/
structure Pending where
  comment : Str
  tags : List (Str × List Str)
  startLine : Option Nat
  decor : Str
deriving DecidableEq, Repr

/-- Empty pending state. -/
def emptyPending : Pending := ⟨[], [], none, []⟩

/-- The pending fields of a loop state, as a specification-machine state. -/
def pendingOf (s : EState) : Pending :=
  ⟨s.pendingCommentBuffer, s.pendingTags, s.pendingCommentStartLine, s.pendingDecoratorBuffer⟩

mutual

/-- Idle state of the specification machine: accumulate the comment run
and its tags, tolerate decorator lines next to pending annotations, open
a block on a construct-start line when tags are pending, and discard all
pending state on any other non-blank line. -/
def specIdle : List (Nat × Str) → Pending → List Block
  | [], _ => []
  | (i, l) :: rest, p =>
    if isCommentLine l then
      specIdle rest
        ⟨p.comment ++ l ++ ['\n'], captureTagsFromComment p.tags l,
          if p.comment.isEmpty then some (i + 1) else p.startLine, p.decor⟩
    else if isDecoratorLine l ∧ (p.comment ≠ [] ∨ p.tags ≠ []) then
      specIdle rest { p with decor := p.decor ++ l ++ ['\n'] }
    else if isCodeBlockStart l then
      if p.tags ≠ [] then
        specOpen rest (p.comment ++ p.decor ++ l ++ ['\n']) p.tags (p.startLine.getD (i + 1))
      else specIdle rest emptyPending
    else if p.decor ≠ [] then
      specIdle rest { p with decor := p.decor ++ l ++ ['\n'] }
    else if jsTrim l ≠ [] then specIdle rest emptyPending
    else specIdle rest p
termination_by els _ => (els.length, 0)

/-- Open state of the specification machine: append every line to the
block verbatim; a construct-start line closes the block (emitting its
trimmed text) and is re-examined from the idle state; end of file closes
a still-open block. -/
def specOpen : List (Nat × Str) → Str → List (Str × List Str) → Nat → List Block
  | [], code, tags, start =>
    if jsTrim code ≠ [] then [⟨jsTrim code, tags, start⟩] else []
  | (i, l) :: rest, code, tags, start =>
    if isCodeBlockStart l then
      ⟨jsTrim code, tags, start⟩ :: specIdle ((i, l) :: rest) emptyPending
    else specOpen rest (code ++ l ++ ['\n']) tags start
termination_by els _ _ _ => (els.length, 1)

end

/-- The specification-side extractor over a whole file. -/
def specExtractCodeBlocks (content : Str) : List Block :=
  specIdle ((splitLines content).enum) emptyPending

/-! ## Gitignore filtering -/

/-- Source `parseGitignore` applied to the text of a `.gitignore` file:
trim each line, drop blank lines and `#` comments. -/
def parseGitignore (content : Str) : List Str :=
  ((splitLines content).map jsTrim).filter
    (fun l => !l.isEmpty && !("#".data.isPrefixOf l))

/-- The root-relative form of a path:
`filePath.replace(rootPath, "").replace(/^\//, "")`. -/
def relOf (filePath rootPath : Str) : Str :=
  match jsReplaceOnce filePath rootPath with
  | '/' :: rest => rest
  | r => r

/-- The regular expression `new RegExp(pattern.replace(/\*/g, ".*"))` of
the wildcard branch: every `*` becomes `.*`, every `.` is the regex
metacharacter matching any non-line-terminator character, and the other
characters of the pattern are literals. JavaScript regex metacharacters
other than `.` and `*` are outside the model; the theorems that use this
compilation restrict patterns to ordinary path characters. -/
def jsDotChar (c : Char) : Bool :=
  !(c = '\n' || c = '\r' || c = Char.ofNat 0x2028 || c = Char.ofNat 0x2029)

/-- Compile a gitignore wildcard pattern to a regex, as above. -/
def compileIgnore : Str → Regex
  | [] => .eps
  | c :: rest =>
    if c = '*' then .seq (.star jsDotChar) (compileIgnore rest)
    else if c = '.' then .seq (.cls jsDotChar) (compileIgnore rest)
    else .seq (.cls (fun d => d = c)) (compileIgnore rest)

/-- The per-pattern test of `shouldIgnore`, applied to the root-relative
path: trailing-slash patterns match as prefix or after a `/`; patterns
with `*` match their compiled regex anywhere; other patterns match by
equality or after a `/`. -/
def ignoreMatched (rel p : Str) : Bool :=
  if p.getLast? = some '/' then
    p.isPrefixOf rel || jsIncludes rel ('/' :: p)
  else if p.contains '*' then
    unanchTest (compileIgnore p) rel
  else
    rel = p || jsIncludes rel ('/' :: p)

/-- Source `shouldIgnore`. -/
def shouldIgnore (filePath rootPath : Str) (patterns : List Str) : Bool :=
  patterns.any (fun p => ignoreMatched (relOf filePath rootPath) p)

/-! ## The extract-code-with-index handler

The handler is embedded over an abstract directory listing: a list of
(path, read outcome) pairs in walker order, where `none` models a file
whose read failed. -/

/-- The per-block rendering of the handler. -/
def formatBlock (relPath code : Str) : Str :=
  "**File:** ".data ++ relPath ++ "\n```\n".data ++ code ++ "\n```".data

/-- The accumulation loop of the handler: skip unreadable files, extract
and filter blocks, append each match to the running result with a blank
separator, and count matches. -/
def extractLoop (folderPath : Str) (pq : ParsedQuery) :
    List (Str × Option Str) → Str → Nat → Str × Nat
  | [], result, count => (result, count)
  | (_, none) :: rest, result, count => extractLoop folderPath pq rest result count
  | (path, some content) :: rest, result, count =>
    let blocks := extractCodeBlocks content
    let matching := blocks.filter (fun b => matchesQuery b.tags pq.scopes pq.operator)
    if matching.isEmpty then extractLoop folderPath pq rest result count
    else
      let rel := relOf path folderPath
      let acc := matching.foldl
        (fun (a : Str × Nat) b =>
          (a.1 ++ (if a.1.isEmpty then [] else "\n\n".data) ++ formatBlock rel b.code, a.2 + 1))
        (result, count)
      extractLoop folderPath pq rest acc.1 acc.2

/-- The text returned by the handler on the success path: the aggregated
matches, or the no-match sentinel when nothing matched anywhere. -/
def extractToolResult (folderPath query : Str) (files : List (Str × Option Str)) : Str :=
  let pq := parseQuery query
  let acc := extractLoop folderPath pq files [] 0
  if acc.2 = 0 then "No matching code found".data else acc.1

/-- The text returned by the handler when a top-level failure is caught. -/
def errorText (msg : Str) : Str :=
  "Error reading code: ".data ++ msg

/-! ## Specification-side ignore rules -/

/-- The slice of a string between two positions. -/
def strSlice (cs : Str) (i j : Nat) : Str :=
  (cs.drop i).take (j - i)

/-- Claim-side wildcard matching as literally worded: each `*` matches
any substring and everything else is literal; unanchored matching means
the `*`-separated segments occur in order. `segSearch` consumes the
segments greedily at their leftmost occurrences, which is complete for
this question. -/
def segSearch : List Str → Str → Bool
  | [], _ => true
  | s :: rest, hay =>
    match (List.range (hay.length + 1)).find? (fun i => s.isPrefixOf (hay.drop i)) with
    | some i => segSearch rest (hay.drop (i + s.length))
    | none => false

/-- Claim-side "occurs as a path segment": the pattern equals one of the
`/`-separated components of the relative path. -/
def claimSegment (p rel : Str) : Bool :=
  (splitOnP (fun c => c = '/') rel).any (fun seg => seg = p)

/-- The three ignore rules exactly as the frozen claim words them:
trailing-`/` patterns match as prefix or path-segment occurrence;
patterns containing `*` match as a literal wildcard, unanchored; other
patterns match by exact equality or by occurring as a path segment. -/
def claimIgnoreRule (p rel : Str) : Bool :=
  if p.getLast? = some '/' then
    p.isPrefixOf rel || jsIncludes rel ('/' :: p)
  else if p.contains '*' then
    segSearch (splitOnP (fun c => c = '*') p) rel
  else
    rel = p || claimSegment p rel

/-- Amended spec-side wildcard matching relation, anchored at both ends:
`*` matches any substring of non-line-terminator characters, `.` matches
any single non-line-terminator character, and every other pattern
character matches itself. -/
inductive GlobM : Str → Str → Prop where
  | nil : GlobM [] []
  | star {p : Str} (s t : Str) : (∀ c ∈ s, jsDotChar c = true) → GlobM p t →
      GlobM ('*' :: p) (s ++ t)
  | dot {p : Str} (c : Char) (t : Str) : jsDotChar c = true → GlobM p t →
      GlobM ('.' :: p) (c :: t)
  | lit {p : Str} (c : Char) (t : Str) : c ≠ '*' → c ≠ '.' → GlobM p t →
      GlobM (c :: p) (c :: t)

/-- Unanchored wildcard matching: some substring of the path matches. -/
def GlobU (p rel : Str) : Prop :=
  ∃ u v w, rel = u ++ v ++ w ∧ GlobM p v

/-- Amended spec-side ignore rules: as the claim words them, except that
the wildcard rule is JavaScript-regex wildcard matching (`*` any
substring, `.` any single character) and the segment rules mean "occurs
right after a `/`". -/
def specIgnoreRule (p rel : Str) : Prop :=
  if p.getLast? = some '/' then
    (∃ t, rel = p ++ t) ∨ ∃ u v, rel = u ++ '/' :: p ++ v
  else if '*' ∈ p then
    GlobU p rel
  else
    rel = p ∨ ∃ u v, rel = u ++ '/' :: p ++ v

/-- Ordinary path-pattern characters: the fragment of gitignore patterns
on which the regex compilation is modelled faithfully (no JavaScript
regex metacharacters besides `.` and `*`). -/
def ignSafeChar (c : Char) : Bool :=
  c.isAlpha || c.isDigit || c = '.' || c = '*' || c = '/' || c = '-' || c = '_'

/-! ## Specification-side matcher -/

/-- Spec wording of requirement satisfaction: the block declares the
scope, and at least one of its declared tag values appears among the
requirement's alternatives. -/
def specSatisfied (blockTags : List (Str × List Str)) (sc : QueryScope) : Prop :=
  ∃ declared, jsGet blockTags sc.name = some declared ∧ ∃ v ∈ declared, v ∈ sc.tags

/-- Spec wording of the matcher: zero requirements match unconditionally;
otherwise AND requires every requirement satisfied and OR at least one. -/
def specMatches (blockTags : List (Str × List Str)) (queryScopes : List QueryScope)
    (operator : Operator) : Prop :=
  if queryScopes = [] then True
  else
    match operator with
    | .and => ∀ sc ∈ queryScopes, specSatisfied blockTags sc
    | .or => ∃ sc ∈ queryScopes, specSatisfied blockTags sc

/-! ## Theorems

Helper lemmas come first; the claim theorems are thin wrappers at the
end of each theme. -/

/-- The boolean per-requirement test agrees with its spec wording. -/
theorem scopeSatisfied_iff (bt : List (Str × List Str)) (sc : QueryScope) :
    scopeSatisfied bt sc = true ↔ specSatisfied bt sc := by
  unfold scopeSatisfied specSatisfied
  cases h : jsGet bt sc.name with
  | none =>
    simp [List.any_eq_true]
  | some d =>
    simp only [Option.getD_some, List.any_eq_true]
    constructor
    · rintro ⟨t, ht, hc⟩
      exact ⟨d, rfl, t, by simpa using hc, ht⟩
    · rintro ⟨d', hd', v, hv, hvt⟩
      obtain rfl : d = d' := by simpa using hd'
      exact ⟨v, hvt, by simpa using hv⟩

/-- C1. The matcher agrees with its specification: zero scope
requirements match unconditionally; each requirement is satisfied iff the
block declares the scope and one of its declared values appears among the
requirement's alternatives (OR over alternatives regardless of the global
combinator); requirement results are combined with AND (all) or OR
(at least one). -/
theorem c1_matchesQuery_spec (bt : List (Str × List Str)) (qs : List QueryScope)
    (op : Operator) : matchesQuery bt qs op = true ↔ specMatches bt qs op := by
  unfold matchesQuery specMatches
  by_cases hqs : qs = []
  · simp [hqs]
  · simp only [List.isEmpty_iff, hqs, if_neg, if_false]
    cases op with
    | and =>
      simp only [List.all_eq_true, List.mem_map]
      constructor
      · intro h sc hsc
        exact (scopeSatisfied_iff bt sc).mp (h _ ⟨sc, hsc, rfl⟩)
      · rintro h b ⟨sc, hsc, rfl⟩
        exact (scopeSatisfied_iff bt sc).mpr (h sc hsc)
    | or =>
      simp only [List.any_eq_true, List.mem_map]
      constructor
      · rintro ⟨b, ⟨sc, hsc, rfl⟩, hb⟩
        exact ⟨sc, hsc, (scopeSatisfied_iff bt sc).mp hb⟩
      · rintro ⟨sc, hsc, h⟩
        exact ⟨_, ⟨sc, hsc, rfl⟩, (scopeSatisfied_iff bt sc).mpr h⟩

/-- C5. The parsed combinator is AND exactly when the raw query contains
`&` and not `|`; in every other case it is OR. -/
theorem c5_operator_rule (q : Str) :
    ((parseQuery q).operator = Operator.and ↔ ('&' ∈ q ∧ '|' ∉ q)) ∧
    ((parseQuery q).operator = Operator.or ↔ ¬('&' ∈ q ∧ '|' ∉ q)) := by
  unfold parseQuery
  by_cases ha : '&' ∈ q <;> by_cases ho : '|' ∈ q <;>
    simp [List.elem_iff, ha, ho]

/-- Splitting a string that contains no separator yields that string. -/
theorem splitOnP_no_sep (p : Char → Bool) (c : Str) (h : ∀ x ∈ c, p x = false) :
    splitOnP p c = [c] := by
  induction c with
  | nil => rfl
  | cons a t ih =>
    have ha := h a (by simp)
    have ht := ih (fun x hx => h x (by simp [hx]))
    simp [splitOnP, ha, ht]

/-- Splitting a separator-free string followed by one separator yields the
string and an empty remainder. -/
theorem splitOnP_sep_last (p : Char → Bool) (n : Str) (s : Char)
    (hn : ∀ x ∈ n, p x = false) (hs : p s = true) :
    splitOnP p (n ++ [s]) = [n, []] := by
  induction n with
  | nil => simp [splitOnP, hs]
  | cons a t ih =>
    have ha := hn a (by simp)
    have ht := ih (fun x hx => hn x (by simp [hx]))
    simp [splitOnP, ha, ht]

/-- Trimming the empty string gives the empty string. -/
@[simp] theorem jsTrim_nil : jsTrim [] = [] := rfl

/-- A bracket group with no colon, or nothing after its first colon,
parses to a requirement with an empty alternatives list. -/
theorem scopeOfContent_empty_tags (c : Str)
    (h : (∀ x ∈ c, x ≠ ':') ∨ ∃ n, (∀ x ∈ n, x ≠ ':') ∧ c = n ++ [':']) :
    (scopeOfContent c).tags = [] := by
  rcases h with h | ⟨n, hn, rfl⟩
  · have := splitOnP_no_sep (fun c => c = ':') c
      (fun x hx => by simpa using h x hx)
    simp [scopeOfContent, this, List.intercalate, splitOnP]
  · have := splitOnP_sep_last (fun c => c = ':') n ':'
      (fun x hx => by simpa using hn x hx) (by simp)
    simp [scopeOfContent, this, List.intercalate, splitOnP]

/-- C10. A bracketed group with no `:` or with an empty tag portion after
the `:` yields a requirement with an empty alternatives list; no block's
tag set satisfies such a requirement; and under the AND combinator a
query containing such a group matches no block at all. -/
theorem c10_empty_group_matches_nothing (q c : Str) (hc : c ∈ bracketGroups q)
    (h : (∀ x ∈ c, x ≠ ':') ∨ ∃ n, (∀ x ∈ n, x ≠ ':') ∧ c = n ++ [':']) :
    (scopeOfContent c).tags = [] ∧
    scopeOfContent c ∈ (parseQuery q).scopes ∧
    (∀ bt, scopeSatisfied bt (scopeOfContent c) = false) ∧
    (∀ bt, (parseQuery q).operator = Operator.and →
      matchesQuery bt (parseQuery q).scopes (parseQuery q).operator = false) := by
  have htags := scopeOfContent_empty_tags c h
  have hmem : scopeOfContent c ∈ (parseQuery q).scopes :=
    List.mem_map_of_mem scopeOfContent hc
  have hsat : ∀ bt, scopeSatisfied bt (scopeOfContent c) = false := by
    intro bt
    simp [scopeSatisfied, htags]
  refine ⟨htags, hmem, hsat, ?_⟩
  intro bt hop
  rw [hop]
  unfold matchesQuery
  have hne : (parseQuery q).scopes.isEmpty = false := by
    cases hx : (parseQuery q).scopes with
    | nil => rw [hx] at hmem; simp at hmem
    | cons a t => rfl
  rw [hne]
  simp only [Bool.false_eq_true, if_false]
  rw [List.all_eq_false]
  refine ⟨scopeSatisfied bt (scopeOfContent c), ?_, by simp [hsat bt]⟩
  exact List.mem_map_of_mem _ hmem

/-! ### Properties of the tag-record assignment -/

/-- Assigning under a key not at the head skips the head. -/
theorem jsSet_cons_ne (a : Str × List Str) (t : List (Str × List Str)) (k : Str)
    (v : List Str) (ha : a.1 ≠ k) : jsSet (a :: t) k v = a :: jsSet t k v := by
  unfold jsSet
  by_cases ht : t.any (fun kv => kv.1 = k) <;> simp [ha, ht]

/-- Lookup steps over a cons cell. -/
theorem jsGet_cons (a : Str × List Str) (t : List (Str × List Str)) (k : Str) :
    jsGet (a :: t) k = if a.1 = k then some a.2 else jsGet t k := by
  unfold jsGet
  rw [List.find?_cons]
  by_cases h : a.1 = k <;> simp [h]

/-- Assigning under a key present at the head replaces the head. -/
theorem jsSet_cons_eq (a : Str × List Str) (t : List (Str × List Str)) (k : Str)
    (v : List Str) (ha : a.1 = k) :
    jsSet (a :: t) k v = (k, v) :: t.map (fun kv => if kv.1 = k then (k, v) else kv) := by
  unfold jsSet
  simp [List.any_cons, ha]

/-- Replacing one key's value in place leaves other keys' lookups alone. -/
theorem jsGet_map_update (t : List (Str × List Str)) (k k' : Str) (v : List Str)
    (hk : k' ≠ k) :
    jsGet (t.map (fun kv => if kv.1 = k then (k, v) else kv)) k' = jsGet t k' := by
  induction t with
  | nil => rfl
  | cons b r ih =>
    by_cases hb : b.1 = k
    · have hcond : (if b.1 = k then (k, v) else b) = (k, v) := by simp [hb]
      have h1 : ¬ ((k : Str) = k') := fun h => hk h.symm
      have h2 : ¬ (b.1 = k') := by rw [hb]; exact h1
      rw [List.map_cons, hcond, jsGet_cons, jsGet_cons]
      simp only [h1, if_false, h2, ih]
    · have hcond : (if b.1 = k then (k, v) else b) = b := by simp [hb]
      rw [List.map_cons, hcond, jsGet_cons, jsGet_cons, ih]

/-- Assignment makes the key read back the assigned value. -/
theorem jsGet_jsSet_self (m : List (Str × List Str)) (k : Str) (v : List Str) :
    jsGet (jsSet m k v) k = some v := by
  induction m with
  | nil => simp [jsSet, jsGet_cons]
  | cons a t ih =>
    by_cases ha : a.1 = k
    · rw [jsSet_cons_eq a t k v ha, jsGet_cons]
      simp
    · rw [jsSet_cons_ne a t k v ha, jsGet_cons]
      simp [ha, ih]

/-- Assignment does not change the value of other keys. -/
theorem jsGet_jsSet_other (m : List (Str × List Str)) (k k' : Str) (v : List Str)
    (hk : k' ≠ k) : jsGet (jsSet m k v) k' = jsGet m k' := by
  induction m with
  | nil =>
    have h1 : ¬ ((k : Str) = k') := fun h => hk h.symm
    simp [jsSet, jsGet_cons, h1]
  | cons a t ih =>
    by_cases ha : a.1 = k
    · rw [jsSet_cons_eq a t k v ha, jsGet_cons, jsGet_cons]
      have h1 : ¬ ((k : Str) = k') := fun h => hk h.symm
      have h2 : ¬ (a.1 = k') := by rw [ha]; exact h1
      simp only [h1, if_false, h2, jsGet_map_update t k k' v hk]
    · rw [jsSet_cons_ne a t k v ha, jsGet_cons, jsGet_cons]
      by_cases ha' : a.1 = k' <;> simp [ha', ih]

/-- Replacing a key's value in place does not change the key list. -/
theorem jsSet_keys_update (m : List (Str × List Str)) (k : Str) (v : List Str) :
    (m.map (fun kv => if kv.1 = k then (k, v) else kv)).map (fun kv => kv.1) =
      m.map (fun kv => kv.1) := by
  induction m with
  | nil => rfl
  | cons a t ih =>
    by_cases ha : a.1 = k <;> simp [ha, ih]

/-- The key list after an assignment: unchanged when the key was present,
extended by the key otherwise. -/
theorem jsSet_keys (m : List (Str × List Str)) (k : Str) (v : List Str) :
    (jsSet m k v).map (fun kv => kv.1) =
      if k ∈ m.map (fun kv => kv.1) then m.map (fun kv => kv.1)
      else m.map (fun kv => kv.1) ++ [k] := by
  unfold jsSet
  by_cases hany : m.any (fun kv => kv.1 = k)
  · have hk : k ∈ m.map (fun kv => kv.1) := by
      rcases List.any_eq_true.mp hany with ⟨kv, hkv, he⟩
      have he' : kv.1 = k := of_decide_eq_true he
      exact he' ▸ List.mem_map_of_mem _ hkv
    rw [if_pos hany, jsSet_keys_update, if_pos hk]
  · have hk : k ∉ m.map (fun kv => kv.1) := by
      intro hmem
      rcases List.mem_map.mp hmem with ⟨kv, hkv, he⟩
      exact hany (List.any_eq_true.mpr ⟨kv, hkv, by simp [he]⟩)
    rw [if_neg hany, if_neg hk, List.map_append]
    rfl

/-- Assignment preserves key uniqueness. -/
theorem jsSet_keys_nodup (m : List (Str × List Str)) (k : Str) (v : List Str)
    (h : (m.map (fun kv => kv.1)).Nodup) : ((jsSet m k v).map (fun kv => kv.1)).Nodup := by
  rw [jsSet_keys]
  by_cases hk : k ∈ m.map (fun kv => kv.1)
  · simpa [hk] using h
  · simp only [hk, if_false]
    rw [List.nodup_append]
    exact ⟨h, List.nodup_singleton k, by simpa [List.disjoint_singleton] using hk⟩

/-- A non-empty list has a last element. -/
theorem getLast?_cons_some {α : Type} (e : α) (es : List α) :
    ∃ x, (e :: es).getLast? = some x := by
  induction es generalizing e with
  | nil => exact ⟨e, rfl⟩
  | cons f fs ih => rw [List.getLast?_cons_cons]; exact ih f

/-- Key membership after one assignment. -/
theorem mem_keys_jsSet (m : List (Str × List Str)) (k0 : Str) (v : List Str) (k : Str) :
    k ∈ (jsSet m k0 v).map (fun kv => kv.1) ↔ k ∈ m.map (fun kv => kv.1) ∨ k = k0 := by
  rw [jsSet_keys]
  by_cases h : k0 ∈ m.map (fun kv => kv.1)
  · rw [if_pos h]
    constructor
    · exact Or.inl
    · rintro (hm | rfl)
      · exact hm
      · exact h
  · rw [if_neg h]
    simp [List.mem_append]

/-- Lookup after folding a declaration list into a record: the last
declaration for the key wins, and absent keys read from the start record. -/
theorem foldl_setDecl_get (decls : List (Str × List Str)) (m : List (Str × List Str))
    (k : Str) :
    jsGet (decls.foldl setDecl m) k =
      match (decls.filter (fun d => d.1 = k)).getLast? with
      | some d => some d.2
      | none => jsGet m k := by
  induction decls generalizing m with
  | nil => rfl
  | cons d ds ih =>
    rw [List.foldl_cons, ih (setDecl m d)]
    by_cases hd : d.1 = k
    · have hfil : (d :: ds).filter (fun d => d.1 = k) = d :: ds.filter (fun d => d.1 = k) := by
        simp [List.filter_cons, hd]
      rw [hfil]
      cases hds : ds.filter (fun d => d.1 = k) with
      | nil =>
        have hset : jsGet (setDecl m d) k = some d.2 := hd ▸ jsGet_jsSet_self m d.1 d.2
        simpa using hset
      | cons e es =>
        rw [List.getLast?_cons_cons]
        obtain ⟨x, hx⟩ := getLast?_cons_some e es
        rw [hx]
    · have hfil : (d :: ds).filter (fun d => d.1 = k) = ds.filter (fun d => d.1 = k) := by
        simp [List.filter_cons, hd]
      rw [hfil]
      have hset : jsGet (setDecl m d) k = jsGet m k :=
        jsGet_jsSet_other m d.1 k d.2 (fun h => hd h.symm)
      cases hlast : (ds.filter (fun d => d.1 = k)).getLast? <;> simp [hset]

/-- Key membership after folding a declaration list into a record. -/
theorem foldl_setDecl_keys (decls : List (Str × List Str)) (m : List (Str × List Str))
    (k : Str) :
    k ∈ (decls.foldl setDecl m).map (fun kv => kv.1) ↔
      k ∈ m.map (fun kv => kv.1) ∨ k ∈ decls.map (fun d => d.1) := by
  induction decls generalizing m with
  | nil => simp
  | cons d ds ih =>
    rw [List.foldl_cons, ih (setDecl m d),
      show setDecl m d = jsSet m d.1 d.2 from rfl, mem_keys_jsSet]
    simp only [List.map_cons, List.mem_cons]
    tauto

/-- Folding a declaration list preserves key uniqueness. -/
theorem foldl_setDecl_nodup (decls : List (Str × List Str)) (m : List (Str × List Str))
    (h : (m.map (fun kv => kv.1)).Nodup) :
    ((decls.foldl setDecl m).map (fun kv => kv.1)).Nodup := by
  induction decls generalizing m with
  | nil => exact h
  | cons d ds ih =>
    exact ih (setDecl m d) (jsSet_keys_nodup m d.1 d.2 h)

/-- Folding `captureTagsFromComment` over a comment run is folding the
concatenated declaration lists of the lines. -/
theorem foldl_capture_eq (run : List Str) (m : List (Str × List Str)) :
    run.foldl captureTagsFromComment m = (run.flatMap tagMatches).foldl setDecl m := by
  induction run generalizing m with
  | nil => rfl
  | cons l ls ih =>
    rw [List.foldl_cons, List.flatMap_cons, List.foldl_append, ih]
    rfl

/-- C6. Folding the tag captures of a comment run into an initially empty
pending record yields unique keys; each scope reads back the latest
declaration for it in the run (left to right across lines and within a
line), and a scope is a key exactly when the run declares it — so the tag
set is the union of the run's scope declarations with last-write-wins. -/
theorem c6_last_write_wins (run : List Str) :
    ((run.foldl captureTagsFromComment []).map (fun kv => kv.1)).Nodup ∧
    (∀ scope, jsGet (run.foldl captureTagsFromComment []) scope =
      match ((run.flatMap tagMatches).filter (fun d => d.1 = scope)).getLast? with
      | some d => some d.2
      | none => none) ∧
    (∀ scope, scope ∈ (run.foldl captureTagsFromComment []).map (fun kv => kv.1) ↔
      scope ∈ (run.flatMap tagMatches).map (fun d => d.1)) := by
  rw [foldl_capture_eq run []]
  refine ⟨foldl_setDecl_nodup _ [] (by simp), ?_, ?_⟩
  · intro scope
    rw [foldl_setDecl_get]
    cases ((run.flatMap tagMatches).filter (fun d => d.1 = scope)).getLast? <;> rfl
  · intro scope
    rw [foldl_setDecl_keys]
    simp

/-- C7 counterexample. A single comment line containing two annotations
contributes two scopes: `tagMatches` recognizes both bracketed groups and
`captureTagsFromComment` records both, contrary to "at most one
recognized annotation per line". -/
theorem c7_counterexample :
    (tagMatches "// [a:x] [b:y]".data).length = 2 ∧
    captureTagsFromComment [] "// [a:x] [b:y]".data =
      [("a".data, ["x".data]), ("b".data, ["y".data])] := by
  constructor <;> decide

/-- C7 amended. Every annotation recognized on a comment line is
contributed — a line may contain any number of annotations, each
contributing one scope: after processing a line, the pending keys are the
previous keys together with the scopes of all of the line's matches. -/
theorem c7_all_annotations_contribute (t : Str) (m : List (Str × List Str)) (s : Str) :
    s ∈ (captureTagsFromComment m t).map (fun kv => kv.1) ↔
      s ∈ m.map (fun kv => kv.1) ∨ s ∈ (tagMatches t).map (fun d => d.1) := by
  have h : captureTagsFromComment m t = (tagMatches t).foldl setDecl m := rfl
  rw [h, foldl_setDecl_keys]

/-! ### Whitespace-only lines are not construct starts -/

/-- A regex whose right sequent never matches yields no match. -/
theorem reMatch_seq_right_empty (cs : Str) (a b : Regex) (i : Nat)
    (h : ∀ j, reMatch cs b j = []) : reMatch cs (.seq a b) i = [] := by
  simp [reMatch, h]

/-- A regex whose left sequent never matches yields no match. -/
theorem reMatch_seq_left_empty (cs : Str) (a b : Regex) (i : Nat)
    (h : ∀ j, reMatch cs a j = []) : reMatch cs (.seq a b) i = [] := by
  simp [reMatch, h]

/-- An alternation of two never-matching regexes never matches. -/
theorem reMatch_alt_empty (cs : Str) (a b : Regex) (i : Nat)
    (ha : ∀ j, reMatch cs a j = []) (hb : ∀ j, reMatch cs b j = []) :
    reMatch cs (.alt a b) i = [] := by
  simp [reMatch, ha, hb]

/-- A character class rejected by every character of the input never
matches. -/
theorem reMatch_cls_empty (cs : Str) (p : Char → Bool) (i : Nat)
    (h : ∀ c, charAt cs i = some c → p c = false) : reMatch cs (.cls p) i = [] := by
  unfold reMatch
  cases hc : charAt cs i with
  | none => rfl
  | some c => simp [h c hc]

/-- Characters read from a string belong to it. -/
theorem charAt_mem (cs : Str) (i : Nat) (c : Char) (h : charAt cs i = some c) : c ∈ cs := by
  unfold charAt at h
  exact List.getElem?_mem h

/-- A literal with a non-whitespace head cannot match inside a
whitespace-only string. -/
theorem rexLit_ws_empty (cs : Str) (hws : ∀ c ∈ cs, jsWsChar c = true) (c : Char)
    (s : Str) (hc : jsWsChar c = false) (i : Nat) :
    reMatch cs (rexLit (c :: s)) i = [] := by
  rw [show rexLit (c :: s) = .seq (.cls (fun d => d = c)) (rexLit s) from rfl]
  apply reMatch_seq_left_empty
  intro j
  apply reMatch_cls_empty
  intro d hd
  have hdw := hws d (charAt_mem cs j d hd)
  by_cases hdc : d = c
  · rw [hdc] at hdw
    rw [hdw] at hc
    exact absurd hc (by simp)
  · simp [hdc]

/-- Whitespace characters do not start identifiers. -/
theorem ws_not_identStart (d : Char) (h : jsWsChar d = true) : identStartChar d = false := by
  unfold jsWsChar at h
  simp only [Bool.or_eq_true, decide_eq_true_eq] at h
  rcases h with ((((h | h) | h) | h) | h) | h <;> subst h <;> decide

/-- Identifiers cannot match inside a whitespace-only string. -/
theorem identRex_ws_empty (cs : Str) (hws : ∀ c ∈ cs, jsWsChar c = true) (i : Nat) :
    reMatch cs identRex i = [] := by
  rw [show identRex = .seq (.cls identStartChar) (.star identChar) from rfl]
  apply reMatch_seq_left_empty
  intro j
  apply reMatch_cls_empty
  intro d hd
  exact ws_not_identStart d (hws d (charAt_mem cs j d hd))

/-- No construct-start pattern matches a whitespace-only line. -/
theorem ws_not_codeStart (cs : Str) (hws : ∀ c ∈ cs, jsWsChar c = true) :
    isCodeBlockStart cs = false := by
  have lit : ∀ (c : Char) (s : Str), jsWsChar c = false → ∀ i,
      reMatch cs (rexLit (c :: s)) i = [] :=
    fun c s hc i => rexLit_ws_empty cs hws c s hc i
  have hkw : ∀ j, reMatch cs keywordAlt j = [] := by
    intro j
    unfold keywordAlt
    apply reMatch_alt_empty cs _ _ j (lit 'f' "unction".data (by decide))
    intro j
    apply reMatch_alt_empty cs _ _ j (lit 'c' "lass".data (by decide))
    intro j
    apply reMatch_alt_empty cs _ _ j (lit 'i' "nterface".data (by decide))
    intro j
    apply reMatch_alt_empty cs _ _ j (lit 'e' "num".data (by decide))
    intro j
    apply reMatch_alt_empty cs _ _ j (lit 't' "ype".data (by decide))
    intro j
    exact reMatch_alt_empty cs _ _ j (lit 'n' "amespace".data (by decide))
      (lit 'm' "odule".data (by decide))
  have hmod : ∀ j, reMatch cs classModAlt j = [] := by
    intro j
    unfold classModAlt
    apply reMatch_alt_empty cs _ _ j (lit 'a' "bstract".data (by decide))
    intro j
    apply reMatch_alt_empty cs _ _ j (lit 'f' "inal".data (by decide))
    intro j
    exact reMatch_alt_empty cs _ _ j (lit 's' "ealed".data (by decide))
      (lit 'b' "ase".data (by decide))
  have hcvl : ∀ j, reMatch cs cvlAlt j = [] := by
    intro j
    unfold cvlAlt
    apply reMatch_alt_empty cs _ _ j (lit 'c' "onst".data (by decide))
    intro j
    exact reMatch_alt_empty cs _ _ j (lit 'l' "et".data (by decide))
      (lit 'v' "ar".data (by decide))
  have hident := identRex_ws_empty cs hws
  have h1 : ∀ i, reMatch cs pat1 i = [] := by
    intro i
    unfold pat1
    refine reMatch_seq_right_empty cs _ _ i (fun j => ?_)
    refine reMatch_seq_right_empty cs _ _ j (fun j => ?_)
    refine reMatch_seq_right_empty cs _ _ j (fun j => ?_)
    refine reMatch_seq_right_empty cs _ _ j (fun j => ?_)
    exact reMatch_seq_left_empty cs _ _ j hkw
  have h2 : ∀ i, reMatch cs pat2 i = [] := by
    intro i
    unfold pat2
    refine reMatch_seq_right_empty cs _ _ i (fun j => ?_)
    exact reMatch_seq_left_empty cs _ _ j hmod
  have h3 : ∀ i, reMatch cs pat3 i = [] := by
    intro i
    unfold pat3
    refine reMatch_seq_right_empty cs _ _ i (fun j => ?_)
    exact reMatch_seq_left_empty cs _ _ j (fun j => lit 'm' "ixin".data (by decide) j)
  have h4 : ∀ i, reMatch cs pat4 i = [] := by
    intro i
    unfold pat4
    refine reMatch_seq_right_empty cs _ _ i (fun j => ?_)
    exact reMatch_seq_left_empty cs _ _ j (fun j => lit 'e' "xtension".data (by decide) j)
  have h5 : ∀ i, reMatch cs pat5 i = [] := by
    intro i
    unfold pat5
    refine reMatch_seq_right_empty cs _ _ i (fun j => ?_)
    refine reMatch_seq_right_empty cs _ _ j (fun j => ?_)
    exact reMatch_seq_left_empty cs _ _ j (fun j => lit 'f' "unction".data (by decide) j)
  have h6 : ∀ i, reMatch cs pat6 i = [] := by
    intro i
    unfold pat6
    refine reMatch_seq_right_empty cs _ _ i (fun j => ?_)
    refine reMatch_seq_right_empty cs _ _ j (fun j => ?_)
    exact reMatch_seq_left_empty cs _ _ j hcvl
  have h7 : ∀ i, reMatch cs pat7 i = [] := by
    intro i
    unfold pat7
    refine reMatch_seq_right_empty cs _ _ i (fun j => ?_)
    refine reMatch_seq_right_empty cs _ _ j (fun j => ?_)
    exact reMatch_seq_left_empty cs _ _ j hcvl
  have h8 : ∀ i, reMatch cs pat8 i = [] := by
    intro i
    unfold pat8
    refine reMatch_seq_right_empty cs _ _ i (fun j => ?_)
    exact reMatch_seq_left_empty cs _ _ j hident
  have h9 : ∀ i, reMatch cs pat9 i = [] := by
    intro i
    unfold pat9
    refine reMatch_seq_right_empty cs _ _ i (fun j => ?_)
    exact reMatch_seq_left_empty cs _ _ j (fun j => lit 'e' "xport".data (by decide) j)
  unfold isCodeBlockStart codeStartPatterns anchoredTest
  simp [h1 0, h2 0, h3 0, h4 0, h5 0, h6 0, h7 0, h8 0, h9 0]

/-- A construct-start line contains a non-whitespace character. -/
theorem codeStart_has_nonWs (l : Str) (h : isCodeBlockStart l = true) :
    ∃ c ∈ l, jsWsChar c = false := by
  by_contra hall
  push_neg at hall
  have hws : ∀ c ∈ l, jsWsChar c = true := by
    intro c hc
    rcases Bool.eq_false_or_eq_true (jsWsChar c) with ht | hf
    · exact ht
    · exact absurd hf (hall c hc)
  rw [ws_not_codeStart l hws] at h
  exact absurd h (by simp)

/-- Trimming yields the empty string exactly for whitespace-only input. -/
theorem jsTrim_eq_nil_iff (cs : Str) : jsTrim cs = [] ↔ ∀ c ∈ cs, jsWsChar c = true := by
  unfold jsTrim
  rw [List.reverse_eq_nil_iff, List.dropWhile_eq_nil_iff]
  constructor
  · intro h c hc
    rw [← List.takeWhile_append_dropWhile (p := jsWsChar) (l := cs)] at hc
    rcases List.mem_append.mp hc with h1 | h2
    · exact List.mem_takeWhile_imp h1
    · exact h c (List.mem_reverse.mpr h2)
  · intro h c hc
    exact h c ((List.dropWhile_sublist jsWsChar).subset (List.mem_reverse.mp hc))

/-- A string containing a non-whitespace character does not trim to
nothing. -/
theorem jsTrim_ne_nil (cs : Str) (h : ∃ c ∈ cs, jsWsChar c = false) : jsTrim cs ≠ [] := by
  intro hnil
  rcases h with ⟨c, hc, hf⟩
  have ht := (jsTrim_eq_nil_iff cs).mp hnil c hc
  rw [ht] at hf
  exact absurd hf (by simp)

/-! ### The open-block invariant: an open block's text never trims away -/

/-- While a block is open, its running text contains a non-whitespace
character (the construct-start line that opened it). -/
def openBlockNonWs (s : EState) : Prop :=
  s.inCodeBlock = true → ∃ c ∈ s.currentBlock, jsWsChar c = false

/-- From an idle state, the idle branches either stay idle or open a
block whose running text is the pending buffers plus the construct line. -/
theorem stepIdle_open_shape (s : EState) (i : Nat) (l : Str) (hin : s.inCodeBlock = false) :
    (stepIdle s i l).inCodeBlock = false ∨
    (isCodeBlockStart l = true ∧ (stepIdle s i l).currentBlock =
      s.pendingCommentBuffer ++ s.pendingDecoratorBuffer ++ l ++ ['\n']) := by
  unfold stepIdle startNewBlockIfTagged
  split_ifs with h1 h2 h3 h4
  all_goals (try (left; exact hin))
  · left
    simp [clearPending, hin]
  · right
    refine ⟨?_, rfl⟩
    assumption

/-- The idle branches establish the invariant whenever they open a block. -/
theorem stepIdle_openNonWs (s : EState) (i : Nat) (l : Str) (hin : s.inCodeBlock = false) :
    openBlockNonWs (stepIdle s i l) := by
  intro hopen
  rcases stepIdle_open_shape s i l hin with hfalse | ⟨hst, hcur⟩
  · rw [hfalse] at hopen
    cases hopen
  · rcases codeStart_has_nonWs l hst with ⟨c, hc, hf⟩
    rw [hcur]
    exact ⟨c, by simp [hc], hf⟩

/-- One loop step preserves the invariant. -/
theorem step_openNonWs (s : EState) (i : Nat) (l : Str) (h : openBlockNonWs s) :
    openBlockNonWs (step s i l) := by
  unfold step
  by_cases hin : s.inCodeBlock = true
  · by_cases hst : isCodeBlockStart l = true
    · rw [if_pos hin, if_pos hst]
      exact stepIdle_openNonWs _ i l rfl
    · rw [if_pos hin, if_neg hst]
      intro _
      rcases h hin with ⟨c, hc, hf⟩
      exact ⟨c, by simp [hc], hf⟩
  · have hin' : s.inCodeBlock = false := by
      revert hin
      cases s.inCodeBlock <;> simp
    rw [if_neg hin]
    exact stepIdle_openNonWs s i l hin'

/-- Folding the loop preserves the invariant. -/
theorem foldl_openNonWs (els : List (Nat × Str)) (s : EState) (h : openBlockNonWs s) :
    openBlockNonWs (els.foldl stepFn s) := by
  induction els generalizing s with
  | nil => exact h
  | cons el rest ih => exact ih (stepFn s el) (step_openNonWs s el.1 el.2 h)

/-- After running any file, a still-open block's text does not trim away. -/
theorem runState_open_trim_ne (content : Str) :
    (runState content).inCodeBlock = true → jsTrim (runState content).currentBlock ≠ [] := by
  intro hopen
  have hinv : openBlockNonWs (runState content) := by
    apply foldl_openNonWs
    intro hc
    cases hc
  exact jsTrim_ne_nil _ (hinv hopen)

/-- C4. While a block is open, a non-construct-start line (in particular
any blank line, which is never a construct start) is appended verbatim
and does not close the block; a construct-start line closes the block,
pushing its trimmed text, and is re-evaluated through the idle branches;
and end of file closes a still-open block — unconditionally so on
reachable states, whose open text never trims away. -/
theorem c4_open_block_behaviour (s : EState) (i : Nat) (l : Str)
    (hin : s.inCodeBlock = true) :
    (isCodeBlockStart l = false →
      step s i l = { s with currentBlock := s.currentBlock ++ l ++ ['\n'] }) ∧
    (jsTrim l = [] → isCodeBlockStart l = false) ∧
    (isCodeBlockStart l = true →
      step s i l = stepIdle
        { s with
          blocks := s.blocks ++ [⟨jsTrim s.currentBlock, s.currentBlockTags, s.blockStartLine⟩],
          currentBlock := [], currentBlockTags := [], inCodeBlock := false } i l) ∧
    (jsTrim s.currentBlock ≠ [] →
      finalizeBlocks s = s.blocks ++
        [⟨jsTrim s.currentBlock, s.currentBlockTags, s.blockStartLine⟩]) ∧
    (∀ content, (runState content).inCodeBlock = true →
      jsTrim (runState content).currentBlock ≠ []) := by
  refine ⟨?_, ?_, ?_, ?_, ?_⟩
  · intro hst
    unfold step
    simp [hin, hst]
  · intro htr
    exact ws_not_codeStart l ((jsTrim_eq_nil_iff l).mp htr)
  · intro hst
    unfold step
    simp [hin, hst]
  · intro hne
    unfold finalizeBlocks
    rw [if_pos ⟨hin, hne⟩]
  · exact runState_open_trim_ne

/-- C4 witness: a concrete open state, a concrete body line appended
verbatim, and the end-of-file close pushing the trimmed block. -/
theorem c4_witness :
    step ⟨true, "function f()\n".data, [("a".data, ["x".data])], 1, [], [], none, [], []⟩
        1 "  body".data =
      { (⟨true, "function f()\n".data, [("a".data, ["x".data])], 1, [], [], none, [], []⟩
          : EState) with
        currentBlock := "function f()\n".data ++ "  body".data ++ ['\n'] } ∧
    finalizeBlocks
        ⟨true, "function f()\n".data, [("a".data, ["x".data])], 1, [], [], none, [], []⟩ =
      [] ++ [⟨jsTrim "function f()\n".data, [("a".data, ["x".data])], 1⟩] := by
  constructor
  · exact (c4_open_block_behaviour _ 1 "  body".data rfl).1 (by decide)
  · exact (c4_open_block_behaviour
      ⟨true, "function f()\n".data, [("a".data, ["x".data])], 1, [], [], none, [], []⟩
      0 [] rfl).2.2.2.1 (by decide)

/-- C3 counterexample. With pending tags present and no block open, a
decorator line followed by an ordinary statement line does NOT discard
the pending state: the statement line is absorbed into the decorator
buffer, and the construct that follows still produces a block carrying
the comment run's tags. The state `s2` below is reached after
`// [a:x]` and `@dec`; the line `const q = 5;` is non-blank, not a
comment, not a decorator and not a construct start, yet the pending tags
survive it and the following `function f() {}` is emitted as a block. -/
theorem c3_counterexample :
    ((step (step initState 0 "// [a:x]".data) 1 "@dec".data).inCodeBlock = false ∧
      (step (step initState 0 "// [a:x]".data) 1 "@dec".data).pendingTags ≠ [] ∧
      isCommentLine "const q = 5;".data = false ∧
      isDecoratorLine "const q = 5;".data = false ∧
      isCodeBlockStart "const q = 5;".data = false ∧
      jsTrim "const q = 5;".data ≠ [] ∧
      (step (step (step initState 0 "// [a:x]".data) 1 "@dec".data) 2
          "const q = 5;".data).pendingTags = [("a".data, ["x".data])]) ∧
    extractCodeBlocks "// [a:x]\n@dec\nconst q = 5;\nfunction f() \x7b\x7d".data =
      [⟨"// [a:x]\n@dec\nconst q = 5;\nfunction f() \x7b\x7d".data,
        [("a".data, ["x".data])], 1⟩] := by
  constructor
  · refine ⟨by decide, by decide, by decide, by decide, by decide, by decide, by decide⟩
  · decide

/-- C3 amended. A non-blank line that is neither a comment, nor a
decorator, nor a construct start discards all pending comment text and
tags — provided no decorator accumulation is in progress (once a
decorator line has been tolerated, subsequent lines accumulate into the
decorator buffer until a construct start instead of resetting). The
specification machine then behaves on the rest of the file as if nothing
had been pending, so no block arises from that comment run. -/
theorem c3_adjacency_reset (s : EState) (i : Nat) (l : Str)
    (hin : s.inCodeBlock = false)
    (hdec : s.pendingDecoratorBuffer = [])
    (hcom : isCommentLine l = false)
    (hdl : isDecoratorLine l = false)
    (hst : isCodeBlockStart l = false)
    (hnb : jsTrim l ≠ []) :
    step s i l = clearPending s ∧
    (clearPending s).pendingTags = [] ∧
    (clearPending s).pendingCommentBuffer = [] ∧
    (clearPending s).pendingCommentStartLine = none ∧
    (clearPending s).pendingDecoratorBuffer = [] ∧
    (clearPending s).blocks = s.blocks ∧
    (clearPending s).inCodeBlock = false ∧
    (∀ (els : List (Nat × Str)) (p : Pending), p.decor = [] →
      specIdle ((i, l) :: els) p = specIdle els emptyPending) := by
  have hstep : step s i l = clearPending s := by
    unfold step stepIdle
    rw [if_neg (by rw [hin]; simp)]
    rw [if_neg (by rw [hcom]; simp)]
    rw [if_neg (by rw [hdl]; simp)]
    rw [if_neg (by rw [hst]; simp)]
    rw [if_neg (by rw [hdec]; simp)]
    rw [if_pos hnb]
  refine ⟨hstep, rfl, rfl, rfl, rfl, rfl, hin, ?_⟩
  intro els p hp
  rw [specIdle]
  rw [if_neg (by rw [hcom]; simp)]
  rw [if_neg (by rw [hdl]; simp)]
  rw [if_neg (by rw [hst]; simp)]
  rw [if_neg (by rw [hp]; simp)]
  rw [if_pos hnb]

/-- C3 witness: the reset fires at a concrete idle state with pending
tags and no decorator buffer. -/
theorem c3_witness :
    step ⟨false, [], [], 0, "// [a:x]\n".data, [("a".data, ["x".data])], some 1, [], []⟩
        1 "const q = 5;".data =
      clearPending
        ⟨false, [], [], 0, "// [a:x]\n".data, [("a".data, ["x".data])], some 1, [], []⟩ :=
  (c3_adjacency_reset
    ⟨false, [], [], 0, "// [a:x]\n".data, [("a".data, ["x".data])], some 1, [], []⟩
    1 "const q = 5;".data rfl rfl (by decide) (by decide) (by decide) (by decide)).1

/-! ### The extractor implements the specification machine -/

/-- Pending projection: comment buffer. -/
theorem pendingOf_comment (s : EState) : (pendingOf s).comment = s.pendingCommentBuffer := rfl

/-- Pending projection: tags. -/
theorem pendingOf_tags (s : EState) : (pendingOf s).tags = s.pendingTags := rfl

/-- Pending projection: start line. -/
theorem pendingOf_startLine (s : EState) :
    (pendingOf s).startLine = s.pendingCommentStartLine := rfl

/-- Pending projection: decorator buffer. -/
theorem pendingOf_decor (s : EState) : (pendingOf s).decor = s.pendingDecoratorBuffer := rfl

/-- Branch lemma: a comment line accumulates into the pending buffers. -/
theorem stepIdle_comment_eq (s : EState) (i : Nat) (l : Str) (h : isCommentLine l = true) :
    stepIdle s i l = { s with
      pendingCommentStartLine :=
        if s.pendingCommentBuffer.isEmpty then some (i + 1) else s.pendingCommentStartLine,
      pendingCommentBuffer := s.pendingCommentBuffer ++ l ++ ['\n'],
      pendingTags := captureTagsFromComment s.pendingTags l } := by
  unfold stepIdle
  rw [if_pos h]

/-- Branch lemma: a decorator line next to pending annotations accumulates
into the decorator buffer. -/
theorem stepIdle_decorator_eq (s : EState) (i : Nat) (l : Str)
    (h1 : isCommentLine l = false)
    (h2 : isDecoratorLine l = true ∧ (s.pendingCommentBuffer ≠ [] ∨ s.pendingTags ≠ [])) :
    stepIdle s i l =
      { s with pendingDecoratorBuffer := s.pendingDecoratorBuffer ++ l ++ ['\n'] } := by
  unfold stepIdle
  rw [if_neg (by rw [h1]; simp), if_pos h2]

/-- Branch lemma: a construct-start line with no pending tags discards the
pending state. -/
theorem stepIdle_start_untagged (s : EState) (i : Nat) (l : Str)
    (hs : s.inCodeBlock = false) (h1 : isCommentLine l = false)
    (h2 : ¬(isDecoratorLine l = true ∧ (s.pendingCommentBuffer ≠ [] ∨ s.pendingTags ≠ [])))
    (h3 : isCodeBlockStart l = true) (h4 : s.pendingTags = []) :
    stepIdle s i l = clearPending s := by
  unfold stepIdle
  rw [if_neg (by rw [h1]; simp), if_neg h2, if_pos h3]
  have hs' : startNewBlockIfTagged s i l = s := by
    unfold startNewBlockIfTagged
    rw [if_pos (by simp [h4])]
  rw [hs']
  exact if_neg (by rw [hs]; simp)

/-- Branch lemma: a construct-start line with pending tags opens a block
from the pending buffers. -/
theorem stepIdle_start_tagged (s : EState) (i : Nat) (l : Str)
    (h1 : isCommentLine l = false)
    (h2 : ¬(isDecoratorLine l = true ∧ (s.pendingCommentBuffer ≠ [] ∨ s.pendingTags ≠ [])))
    (h3 : isCodeBlockStart l = true) (h4 : ¬ s.pendingTags = []) :
    stepIdle s i l = { s with
      currentBlock := s.pendingCommentBuffer ++ s.pendingDecoratorBuffer ++ l ++ ['\n'],
      blockStartLine := s.pendingCommentStartLine.getD (i + 1),
      currentBlockTags := s.pendingTags,
      inCodeBlock := true,
      pendingCommentBuffer := [], pendingTags := [],
      pendingCommentStartLine := none, pendingDecoratorBuffer := [] } := by
  unfold stepIdle
  rw [if_neg (by rw [h1]; simp), if_neg h2, if_pos h3]
  have hopen : startNewBlockIfTagged s i l = { s with
      currentBlock := s.pendingCommentBuffer ++ s.pendingDecoratorBuffer ++ l ++ ['\n'],
      blockStartLine := s.pendingCommentStartLine.getD (i + 1),
      currentBlockTags := s.pendingTags,
      inCodeBlock := true,
      pendingCommentBuffer := [], pendingTags := [],
      pendingCommentStartLine := none, pendingDecoratorBuffer := [] } := by
    unfold startNewBlockIfTagged
    rw [if_neg (by simpa using h4)]
  rw [hopen]
  exact if_pos rfl

/-- Branch lemma: while decorator accumulation is in progress, any
further non-construct line accumulates too. -/
theorem stepIdle_decorbuf_eq (s : EState) (i : Nat) (l : Str)
    (h1 : isCommentLine l = false)
    (h2 : ¬(isDecoratorLine l = true ∧ (s.pendingCommentBuffer ≠ [] ∨ s.pendingTags ≠ [])))
    (h3 : isCodeBlockStart l = false) (h5 : s.pendingDecoratorBuffer ≠ []) :
    stepIdle s i l =
      { s with pendingDecoratorBuffer := s.pendingDecoratorBuffer ++ l ++ ['\n'] } := by
  unfold stepIdle
  rw [if_neg (by rw [h1]; simp), if_neg h2, if_neg (by rw [h3]; simp), if_pos h5]

/-- Branch lemma: any other non-blank line discards the pending state. -/
theorem stepIdle_reset_eq (s : EState) (i : Nat) (l : Str)
    (h1 : isCommentLine l = false)
    (h2 : ¬(isDecoratorLine l = true ∧ (s.pendingCommentBuffer ≠ [] ∨ s.pendingTags ≠ [])))
    (h3 : isCodeBlockStart l = false) (h5 : s.pendingDecoratorBuffer = [])
    (h6 : jsTrim l ≠ []) :
    stepIdle s i l = clearPending s := by
  unfold stepIdle
  rw [if_neg (by rw [h1]; simp), if_neg h2, if_neg (by rw [h3]; simp),
    if_neg (by rw [h5]; simp), if_pos h6]

/-- Branch lemma: a blank line leaves the idle state untouched. -/
theorem stepIdle_blank_eq (s : EState) (i : Nat) (l : Str)
    (h1 : isCommentLine l = false)
    (h2 : ¬(isDecoratorLine l = true ∧ (s.pendingCommentBuffer ≠ [] ∨ s.pendingTags ≠ [])))
    (h3 : isCodeBlockStart l = false) (h5 : s.pendingDecoratorBuffer = [])
    (h6 : ¬ jsTrim l ≠ []) :
    stepIdle s i l = s := by
  unfold stepIdle
  rw [if_neg (by rw [h1]; simp), if_neg h2, if_neg (by rw [h3]; simp),
    if_neg (by rw [h5]; simp), if_neg h6]

/-- The loop of `extractCodeBlocks`, from any state, produces exactly the
blocks of the specification machine started in the corresponding state:
idle states correspond to `specIdle` on the pending annotation state, and
open states (with clean pending buffers, as the source maintains) to
`specOpen` on the running block. -/
theorem spec_correspond (els : List (Nat × Str)) :
    (∀ s : EState, s.inCodeBlock = false →
      finalizeBlocks (els.foldl stepFn s) = s.blocks ++ specIdle els (pendingOf s)) ∧
    (∀ s : EState, s.inCodeBlock = true → pendingOf s = emptyPending →
      finalizeBlocks (els.foldl stepFn s) =
        s.blocks ++ specOpen els s.currentBlock s.currentBlockTags s.blockStartLine) := by
  induction els with
  | nil =>
    constructor
    · intro s hs
      rw [List.foldl_nil, specIdle]
      unfold finalizeBlocks
      rw [if_neg (by rw [hs]; simp)]
      simp
    · intro s hs _
      rw [List.foldl_nil, specOpen]
      unfold finalizeBlocks
      by_cases htr : jsTrim s.currentBlock ≠ []
      · rw [if_pos ⟨hs, htr⟩, if_pos htr]
      · rw [if_neg (fun hh => htr hh.2), if_neg htr]
        simp
  | cons el rest ih =>
    obtain ⟨Pr, Qr⟩ := ih
    obtain ⟨i, l⟩ := el
    have hP : ∀ s : EState, s.inCodeBlock = false →
        finalizeBlocks (((i, l) :: rest).foldl stepFn s) =
          s.blocks ++ specIdle ((i, l) :: rest) (pendingOf s) := by
      intro s hs
      rw [List.foldl_cons]
      have hstep : stepFn s (i, l) = stepIdle s i l := by
        unfold stepFn step
        rw [if_neg (by rw [hs]; simp)]
      rw [hstep, specIdle]
      simp only [pendingOf_comment, pendingOf_tags, pendingOf_startLine, pendingOf_decor]
      by_cases h1 : isCommentLine l = true
      · rw [stepIdle_comment_eq s i l h1, if_pos h1]
        exact Pr _ hs
      · have h1' : isCommentLine l = false := by
          revert h1
          cases isCommentLine l <;> simp
        rw [if_neg (by rw [h1']; simp)]
        by_cases h2 : isDecoratorLine l = true ∧ (s.pendingCommentBuffer ≠ [] ∨ s.pendingTags ≠ [])
        · rw [stepIdle_decorator_eq s i l h1' h2, if_pos h2]
          exact Pr _ hs
        · rw [if_neg h2]
          by_cases h3 : isCodeBlockStart l = true
          · rw [if_pos h3]
            by_cases h4 : s.pendingTags = []
            · rw [stepIdle_start_untagged s i l hs h1' h2 h3 h4,
                if_neg (show ¬ (s.pendingTags ≠ []) from by simp [h4])]
              exact Pr _ hs
            · rw [stepIdle_start_tagged s i l h1' h2 h3 h4, if_pos h4]
              exact Qr _ rfl rfl
          · have h3' : isCodeBlockStart l = false := by
              revert h3
              cases isCodeBlockStart l <;> simp
            rw [if_neg (by rw [h3']; simp)]
            by_cases h5 : s.pendingDecoratorBuffer ≠ []
            · rw [stepIdle_decorbuf_eq s i l h1' h2 h3' h5, if_pos h5]
              exact Pr _ hs
            · have h5' : s.pendingDecoratorBuffer = [] := by
                revert h5
                by_cases hx : s.pendingDecoratorBuffer = [] <;> simp [hx]
              rw [if_neg h5]
              by_cases h6 : jsTrim l ≠ []
              · rw [stepIdle_reset_eq s i l h1' h2 h3' h5' h6, if_pos h6]
                exact Pr _ hs
              · rw [stepIdle_blank_eq s i l h1' h2 h3' h5' h6, if_neg h6]
                exact Pr _ hs
    refine ⟨hP, ?_⟩
    intro s hs hpend
    rw [List.foldl_cons, specOpen]
    by_cases hst : isCodeBlockStart l = true
    · rw [if_pos hst]
      have hstep : stepFn s (i, l) = stepIdle
          { s with
            blocks := s.blocks ++
              [⟨jsTrim s.currentBlock, s.currentBlockTags, s.blockStartLine⟩],
            currentBlock := [], currentBlockTags := [], inCodeBlock := false } i l := by
        unfold stepFn step
        rw [if_pos hs, if_pos hst]
      have hc := hP { s with
          blocks := s.blocks ++
            [⟨jsTrim s.currentBlock, s.currentBlockTags, s.blockStartLine⟩],
          currentBlock := [], currentBlockTags := [], inCodeBlock := false } rfl
      rw [List.foldl_cons] at hc
      have hstep2 : stepFn { s with
          blocks := s.blocks ++
            [⟨jsTrim s.currentBlock, s.currentBlockTags, s.blockStartLine⟩],
          currentBlock := [], currentBlockTags := [], inCodeBlock := false } (i, l) =
          stepIdle { s with
            blocks := s.blocks ++
              [⟨jsTrim s.currentBlock, s.currentBlockTags, s.blockStartLine⟩],
            currentBlock := [], currentBlockTags := [], inCodeBlock := false } i l := by
        unfold stepFn step
        rw [if_neg (by simp)]
      rw [hstep2] at hc
      rw [hstep, hc]
      rw [show pendingOf { s with
          blocks := s.blocks ++
            [⟨jsTrim s.currentBlock, s.currentBlockTags, s.blockStartLine⟩],
          currentBlock := [], currentBlockTags := [], inCodeBlock := false } =
          emptyPending from hpend]
      rw [show ({ s with
          blocks := s.blocks ++
            [⟨jsTrim s.currentBlock, s.currentBlockTags, s.blockStartLine⟩],
          currentBlock := [], currentBlockTags := [], inCodeBlock := false }
          : EState).blocks = s.blocks ++
            [⟨jsTrim s.currentBlock, s.currentBlockTags, s.blockStartLine⟩] from rfl,
        List.append_assoc]
      rfl
    · have hstep : stepFn s (i, l) =
          { s with currentBlock := s.currentBlock ++ l ++ ['\n'] } := by
        unfold stepFn step
        rw [if_pos hs, if_neg hst]
      rw [hstep, if_neg hst]
      exact Qr _ hs hpend

/-- The source extractor equals the specification machine on every file. -/
theorem extract_eq_spec (content : Str) :
    extractCodeBlocks content = specExtractCodeBlocks content := by
  unfold extractCodeBlocks specExtractCodeBlocks runState
  have h := (spec_correspond ((splitLines content).enum)).1 initState rfl
  simpa using h

/-- Every block the specification machine emits carries a non-empty tag
set: blocks only open when pending tags exist. -/
theorem spec_tags_nonempty (els : List (Nat × Str)) :
    (∀ (p : Pending), ∀ b ∈ specIdle els p, b.tags ≠ []) ∧
    (∀ (code : Str) (tags : List (Str × List Str)) (start : Nat), tags ≠ [] →
      ∀ b ∈ specOpen els code tags start, b.tags ≠ []) := by
  induction els with
  | nil =>
    constructor
    · intro p b hb
      rw [specIdle] at hb
      cases hb
    · intro code tags start htags b hb
      rw [specOpen] at hb
      by_cases htr : jsTrim code ≠ []
      · rw [if_pos htr] at hb
        rcases List.mem_singleton.mp hb with rfl
        exact htags
      · rw [if_neg htr] at hb
        cases hb
  | cons el rest ih =>
    obtain ⟨ih1, ih2⟩ := ih
    obtain ⟨i, l⟩ := el
    have hA : ∀ (p : Pending), ∀ b ∈ specIdle ((i, l) :: rest) p, b.tags ≠ [] := by
      intro p b hb
      rw [specIdle] at hb
      split_ifs at hb <;>
        first
          | exact ih1 _ b hb
          | exact ih2 _ _ _ (by assumption) b hb
    refine ⟨hA, ?_⟩
    intro code tags start htags b hb
    rw [specOpen] at hb
    split_ifs at hb with h1
    · rcases List.mem_cons.mp hb with rfl | hb'
      · exact htags
      · exact hA emptyPending b hb'
    · exact ih2 _ _ _ htags b hb

/-- Start lines of the specification machine's blocks are strictly
increasing, and bounded below by the pending comment-run start (idle) or
the open block's start line (open). -/
theorem spec_startLine_mono (lines : List Str) :
    ∀ (n : Nat),
    (∀ (p : Pending), (∀ v, p.startLine = some v → v ≤ n) →
      List.Chain' (fun a b => a.startLine < b.startLine)
        (specIdle (List.enumFrom n lines) p) ∧
      (∀ b ∈ specIdle (List.enumFrom n lines) p,
        p.startLine.getD (n + 1) ≤ b.startLine)) ∧
    (∀ (code : Str) (tags : List (Str × List Str)) (start : Nat), start ≤ n →
      List.Chain' (fun a b => a.startLine < b.startLine)
        (specOpen (List.enumFrom n lines) code tags start) ∧
      (∀ b ∈ specOpen (List.enumFrom n lines) code tags start,
        start ≤ b.startLine)) := by
  induction lines with
  | nil =>
    intro n
    constructor
    · intro p _
      rw [show List.enumFrom n ([] : List Str) = [] from rfl, specIdle]
      exact ⟨List.chain'_nil, by intro b hb; cases hb⟩
    · intro code tags start hstart
      rw [show List.enumFrom n ([] : List Str) = [] from rfl, specOpen]
      by_cases htr : jsTrim code ≠ []
      · rw [if_pos htr]
        refine ⟨List.chain'_singleton _, ?_⟩
        intro b hb
        rcases List.mem_singleton.mp hb with rfl
        exact Nat.le_refl start
      · rw [if_neg htr]
        exact ⟨List.chain'_nil, by intro b hb; cases hb⟩
  | cons l ls ih =>
    intro n
    have henum : List.enumFrom n (l :: ls) = (n, l) :: List.enumFrom (n + 1) ls := rfl
    have hA : ∀ (p : Pending), (∀ v, p.startLine = some v → v ≤ n) →
        List.Chain' (fun a b => a.startLine < b.startLine)
          (specIdle (List.enumFrom n (l :: ls)) p) ∧
        (∀ b ∈ specIdle (List.enumFrom n (l :: ls)) p,
          p.startLine.getD (n + 1) ≤ b.startLine) := by
      intro p hp
      rw [henum, specIdle]
      by_cases h1 : isCommentLine l = true
      · rw [if_pos h1]
        have hp' : ∀ v, (if p.comment.isEmpty then some (n + 1) else p.startLine) = some v →
            v ≤ n + 1 := by
          intro v hv
          by_cases he : p.comment.isEmpty
          · rw [if_pos he] at hv
            injection hv with hveq
            omega
          · rw [if_neg he] at hv
            exact Nat.le_succ_of_le (hp v hv)
        have hih := (ih (n + 1)).1
          ⟨p.comment ++ l ++ ['\n'], captureTagsFromComment p.tags l,
            if p.comment.isEmpty then some (n + 1) else p.startLine, p.decor⟩ hp'
        refine ⟨hih.1, ?_⟩
        intro b hb
        have hbb := hih.2 b hb
        refine Nat.le_trans ?_ hbb
        show p.startLine.getD (n + 1) ≤
          (if p.comment.isEmpty then some (n + 1) else p.startLine).getD (n + 2)
        by_cases he : p.comment.isEmpty
        · rw [if_pos he]
          cases hs : p.startLine with
          | none => simp
          | some v => simpa using Nat.le_succ_of_le (hp v hs)
        · rw [if_neg he]
          cases hs : p.startLine with
          | none => simp
          | some v => simp
      · rw [if_neg (by rw [show isCommentLine l = false from by revert h1; cases isCommentLine l <;> simp]; simp)]
        by_cases h2 : isDecoratorLine l = true ∧ (p.comment ≠ [] ∨ p.tags ≠ [])
        · rw [if_pos h2]
          have hih := (ih (n + 1)).1 { p with decor := p.decor ++ l ++ ['\n'] }
            (fun v hv => Nat.le_succ_of_le (hp v hv))
          refine ⟨hih.1, ?_⟩
          intro b hb
          have hbb := hih.2 b hb
          refine Nat.le_trans ?_ hbb
          show p.startLine.getD (n + 1) ≤ p.startLine.getD (n + 2)
          cases hs : p.startLine with
          | none => simp
          | some v => simp
        · rw [if_neg h2]
          by_cases h3 : isCodeBlockStart l = true
          · rw [if_pos h3]
            by_cases h4 : p.tags ≠ []
            · rw [if_pos h4]
              have hstart : p.startLine.getD (n + 1) ≤ n + 1 := by
                cases hs : p.startLine with
                | none => simp
                | some v => simpa using Nat.le_succ_of_le (hp v hs)
              have hih := (ih (n + 1)).2 (p.comment ++ p.decor ++ l ++ ['\n']) p.tags
                (p.startLine.getD (n + 1)) hstart
              exact ⟨hih.1, hih.2⟩
            · rw [if_neg h4]
              have hih := (ih (n + 1)).1 emptyPending (by intro v hv; cases hv)
              refine ⟨hih.1, ?_⟩
              intro b hb
              have hbb := hih.2 b hb
              have hb2 : n + 2 ≤ b.startLine := by simpa [emptyPending] using hbb
              have hb1 : p.startLine.getD (n + 1) ≤ n + 1 := by
                cases hs : p.startLine with
                | none => simp
                | some v => simpa using Nat.le_succ_of_le (hp v hs)
              omega
          · rw [if_neg (by rw [show isCodeBlockStart l = false from by revert h3; cases isCodeBlockStart l <;> simp]; simp)]
            by_cases h5 : p.decor ≠ []
            · rw [if_pos h5]
              have hih := (ih (n + 1)).1 { p with decor := p.decor ++ l ++ ['\n'] }
                (fun v hv => Nat.le_succ_of_le (hp v hv))
              refine ⟨hih.1, ?_⟩
              intro b hb
              have hbb := hih.2 b hb
              refine Nat.le_trans ?_ hbb
              show p.startLine.getD (n + 1) ≤ p.startLine.getD (n + 2)
              cases hs : p.startLine with
              | none => simp
              | some v => simp
            · rw [if_neg h5]
              by_cases h6 : jsTrim l ≠ []
              · rw [if_pos h6]
                have hih := (ih (n + 1)).1 emptyPending (by intro v hv; cases hv)
                refine ⟨hih.1, ?_⟩
                intro b hb
                have hbb := hih.2 b hb
                have hb2 : n + 2 ≤ b.startLine := by simpa [emptyPending] using hbb
                have hb1 : p.startLine.getD (n + 1) ≤ n + 1 := by
                  cases hs : p.startLine with
                  | none => simp
                  | some v => simpa using Nat.le_succ_of_le (hp v hs)
                omega
              · rw [if_neg h6]
                have hih := (ih (n + 1)).1 p (fun v hv => Nat.le_succ_of_le (hp v hv))
                refine ⟨hih.1, ?_⟩
                intro b hb
                have hbb := hih.2 b hb
                refine Nat.le_trans ?_ hbb
                show p.startLine.getD (n + 1) ≤ p.startLine.getD (n + 2)
                cases hs : p.startLine with
                | none => simp
                | some v => simp
    constructor
    · exact hA
    · intro code tags start hstart
      rw [henum, specOpen]
      split_ifs with h1
      · -- close and re-examine
        have hrest := hA emptyPending (by intro v hv; cases hv)
        have hbound : ∀ b ∈ specIdle (List.enumFrom n (l :: ls)) emptyPending,
            n + 1 ≤ b.startLine := by
          intro b hb
          have := hrest.2 b hb
          simpa [emptyPending] using this
        constructor
        · rw [List.chain'_cons']
          constructor
          · intro h hh
            have hmem := List.mem_of_mem_head? hh
            have hge := hbound h hmem
            show start < h.startLine
            omega
          · exact hrest.1
        · intro b hb
          rcases List.mem_cons.mp hb with rfl | hb'
          · exact Nat.le_refl start
          · have hge := hbound b hb'
            omega
      · -- append
        have hih := ((ih (n + 1)).2 (code ++ l ++ ['\n']) tags start
          (Nat.le_succ_of_le hstart))
        exact ⟨hih.1, hih.2⟩

/-- C2 counterexample. The source trims a block's code with
`String.trim`, which removes leading and trailing whitespace — not just
blank lines. For a file whose first comment line is indented, the emitted
code drops the indentation, so it is not the comment run plus construct
lines trimmed of leading/trailing blank lines (which would keep the two
leading spaces). -/
theorem c2_counterexample :
    extractCodeBlocks "  // [a:x]\nfunction f() \x7b\x7d".data =
      [⟨"// [a:x]\nfunction f() \x7b\x7d".data, [("a".data, ["x".data])], 1⟩] ∧
    "// [a:x]\nfunction f() \x7b\x7d".data ≠ "  // [a:x]\nfunction f() \x7b\x7d".data := by
  constructor <;> decide

/-- C2 amended. Every block emitted by extraction satisfies the Code
Block contract with whitespace trimming: the extractor coincides with the
specification machine, whose blocks carry the preceding comment run plus
decorator lines plus the construct's lines trimmed of leading/trailing
whitespace, a start line at the comment run's first line (or the
construct line without comments), and a tag snapshot taken at opening;
all emitted tag sets are non-empty, and blocks appear in source order
(strictly increasing start lines). -/
theorem c2_block_contract (content : Str) :
    extractCodeBlocks content = specExtractCodeBlocks content ∧
    (∀ b ∈ extractCodeBlocks content, b.tags ≠ []) ∧
    List.Chain' (fun a b => a.startLine < b.startLine) (extractCodeBlocks content) := by
  have heq := extract_eq_spec content
  refine ⟨heq, ?_, ?_⟩
  · rw [heq]
    unfold specExtractCodeBlocks
    exact (spec_tags_nonempty _).1 emptyPending
  · rw [heq]
    unfold specExtractCodeBlocks
    have h := ((spec_startLine_mono (splitLines content) 0).1 emptyPending
      (by intro v hv; cases hv)).1
    exact h

/-- C2 witness: the contract instantiated at a concrete file with one
tagged construct. -/
theorem c2_witness :
    extractCodeBlocks "// [a:x]\nfunction f() \x7b\x7d".data =
      specExtractCodeBlocks "// [a:x]\nfunction f() \x7b\x7d".data ∧
    (⟨"// [a:x]\nfunction f() \x7b\x7d".data, [("a".data, ["x".data])], 1⟩ : Block).tags ≠ [] := by
  refine ⟨(c2_block_contract _).1, ?_⟩
  exact (c2_block_contract "// [a:x]\nfunction f() \x7b\x7d".data).2.1 _ (by decide)

/-! ### The no-match sentinel of the extract handler -/

/-- When no readable file contributes a matching block, the handler loop
returns its accumulator untouched. -/
theorem extractLoop_no_match (folderPath : Str) (pq : ParsedQuery) :
    ∀ (files : List (Str × Option Str)) (result : Str) (count : Nat),
    (∀ pc ∈ files, ∀ c, pc.2 = some c →
      (extractCodeBlocks c).filter (fun b => matchesQuery b.tags pq.scopes pq.operator) = []) →
    extractLoop folderPath pq files result count = (result, count) := by
  intro files
  induction files with
  | nil => intro result count _; rfl
  | cons pc rest ih =>
    intro result count h
    obtain ⟨path, oc⟩ := pc
    cases oc with
    | none =>
      rw [extractLoop]
      exact ih result count (fun pc hpc c hc => h pc (by simp [hpc]) c hc)
    | some c =>
      have hm : (extractCodeBlocks c).filter
          (fun b => matchesQuery b.tags pq.scopes pq.operator) = [] :=
        h (path, some c) (by simp) c rfl
      rw [extractLoop]
      simp only [hm, List.isEmpty_nil, if_true]
      exact ih result count (fun pc hpc c hc => h pc (by simp [hpc]) c hc)

/-- C8. If zero blocks match across all scanned files — unreadable files
contributing zero blocks while processing continues with the rest — the
handler returns the literal no-match sentinel, which differs from every
possible top-level error text. -/
theorem c8_no_match_sentinel (folderPath query : Str) (files : List (Str × Option Str)) :
    ((∀ pc ∈ files, ∀ c, pc.2 = some c →
        (extractCodeBlocks c).filter (fun b =>
          matchesQuery b.tags (parseQuery query).scopes (parseQuery query).operator) = []) →
      extractToolResult folderPath query files = "No matching code found".data) ∧
    (∀ (p : Str) (files' : List (Str × Option Str)),
      extractToolResult folderPath query ((p, none) :: files') =
        extractToolResult folderPath query files') ∧
    (∀ msg, "No matching code found".data ≠ errorText msg) := by
  refine ⟨?_, ?_, ?_⟩
  · intro h
    show (if (extractLoop folderPath (parseQuery query) files [] 0).2 = 0 then
        "No matching code found".data
      else (extractLoop folderPath (parseQuery query) files [] 0).1) =
        "No matching code found".data
    rw [extractLoop_no_match folderPath (parseQuery query) files [] 0 h]
    rfl
  · intro p files'
    show (if (extractLoop folderPath (parseQuery query) ((p, none) :: files') [] 0).2 = 0 then
        "No matching code found".data
      else (extractLoop folderPath (parseQuery query) ((p, none) :: files') [] 0).1) =
      (if (extractLoop folderPath (parseQuery query) files' [] 0).2 = 0 then
        "No matching code found".data
      else (extractLoop folderPath (parseQuery query) files' [] 0).1)
    rw [show extractLoop folderPath (parseQuery query) ((p, none) :: files') [] 0 =
      extractLoop folderPath (parseQuery query) files' [] 0 from by rw [extractLoop]]
  · intro msg hEq
    unfold errorText at hEq
    injection hEq with h1 _
    exact absurd h1 (by decide)

/-- C8 witness: a listing with one unreadable file and one readable file
with no tagged block yields the sentinel under a concrete query. -/
theorem c8_witness :
    extractToolResult "/p".data "[feature:auth]".data
      [("/p/a.ts".data, none), ("/p/b.ts".data, some "let x = 1".data)] =
      "No matching code found".data := by
  apply (c8_no_match_sentinel "/p".data "[feature:auth]".data
    [("/p/a.ts".data, none), ("/p/b.ts".data, some "let x = 1".data)]).1
  intro pc hpc c hc
  rcases List.mem_cons.mp hpc with rfl | hpc2
  · cases hc
  · rcases List.mem_cons.mp hpc2 with rfl | h3
    · injection hc with hc2
      subst hc2
      decide
    · cases h3

/-! ### Ignore-rule wildcard matching -/

/-- Length of a slice within bounds. -/
theorem strSlice_length (cs : Str) (i j : Nat) (hij : i ≤ j) (hj : j ≤ cs.length) :
    (strSlice cs i j).length = j - i := by
  unfold strSlice
  rw [List.length_take, List.length_drop]
  omega

/-- The empty slice. -/
theorem strSlice_self (cs : Str) (i : Nat) : strSlice cs i i = [] := by
  simp [strSlice]

/-- Splitting a slice at an intermediate position. -/
theorem strSlice_append (cs : Str) (i k j : Nat) (hik : i ≤ k) (hkj : k ≤ j) :
    strSlice cs i j = strSlice cs i k ++ strSlice cs k j := by
  unfold strSlice
  rw [show j - i = (k - i) + (j - k) from by omega, List.take_add]
  congr 1
  rw [List.drop_drop, show i + (k - i) = k from by omega]

/-- A character read at a position bounds the position. -/
theorem charAt_lt (cs : Str) (i : Nat) (c : Char) (h : charAt cs i = some c) :
    i < cs.length := by
  unfold charAt at h
  exact (List.getElem?_eq_some.mp h).1

/-- Reading the head of a dropped suffix. -/
theorem charAt_drop_head (cs : Str) (i : Nat) (c : Char) (t : Str)
    (h : cs.drop i = c :: t) : charAt cs i = some c := by
  unfold charAt
  rw [← List.head?_drop, h]
  rfl

/-- Decomposing a non-empty slice at its head character. -/
theorem strSlice_cons (cs : Str) (i j : Nat) (c : Char) (h : charAt cs i = some c)
    (hij : i < j) : strSlice cs i j = c :: strSlice cs (i + 1) j := by
  have hi : i < cs.length := charAt_lt cs i c h
  have hg : cs[i] = c := by
    obtain ⟨h1, h2⟩ := List.getElem?_eq_some.mp h
    exact h2
  have hdrop : cs.drop i = c :: cs.drop (i + 1) := by
    rw [List.drop_eq_getElem_cons hi, hg]
  unfold strSlice
  rw [hdrop, show j - i = (j - (i + 1)) + 1 from by omega, List.take_succ_cons]

/-- Membership in `starPos`: the positions reachable by consuming a
class-satisfying prefix of the suffix. -/
theorem starPos_mem (q : Char → Bool) (suffix : Str) (i k : Nat) :
    k ∈ starPos q suffix i ↔
      ∃ m, m ≤ suffix.length ∧ k = i + m ∧ ∀ x ∈ suffix.take m, q x = true := by
  induction suffix generalizing i with
  | nil =>
    show k ∈ [i] ↔ _
    simp only [List.mem_singleton]
    constructor
    · rintro rfl
      exact ⟨0, by simp, by omega, by simp⟩
    · rintro ⟨m, hm, rfl, _⟩
      simp only [List.length_nil, Nat.le_zero] at hm
      omega
  | cons c rest ih =>
    show k ∈ i :: (if q c then starPos q rest (i + 1) else []) ↔ _
    rw [List.mem_cons]
    constructor
    · rintro (rfl | hk)
      · exact ⟨0, by simp, by omega, by simp⟩
      · by_cases hq : q c = true
        · rw [if_pos hq] at hk
          obtain ⟨m, hm, rfl, hall⟩ := (ih (i + 1)).mp hk
          refine ⟨m + 1, by simp; omega, by omega, ?_⟩
          rw [List.take_succ_cons]
          intro x hx
          rcases List.mem_cons.mp hx with rfl | hx'
          · exact hq
          · exact hall x hx'
        · rw [if_neg hq] at hk
          cases hk
    · rintro ⟨m, hm, rfl, hall⟩
      cases m with
      | zero => left; omega
      | succ m' =>
        right
        have hq : q c = true := hall c (by rw [List.take_succ_cons]; simp)
        rw [if_pos hq]
        apply (ih (i + 1)).mpr
        refine ⟨m', by simp at hm; omega, by omega, ?_⟩
        intro x hx
        apply hall
        rw [List.take_succ_cons]
        exact List.mem_cons_of_mem c hx

/-- Inversion: the empty pattern matches only the empty string. -/
theorem globM_nil_iff (x : Str) : GlobM [] x ↔ x = [] := by
  constructor
  · intro h
    cases h
    rfl
  · rintro rfl
    exact GlobM.nil

/-- Inversion for a leading `*`. -/
theorem globM_star_iff (p x : Str) :
    GlobM ('*' :: p) x ↔
      ∃ s t, x = s ++ t ∧ (∀ c ∈ s, jsDotChar c = true) ∧ GlobM p t := by
  constructor
  · intro h
    cases h with
    | star s t hdot hg => exact ⟨s, t, rfl, hdot, hg⟩
    | lit c t hc hc2 hg => exact absurd rfl hc
  · rintro ⟨s, t, rfl, hdot, hg⟩
    exact GlobM.star s t hdot hg

/-- Inversion for a leading `.`. -/
theorem globM_dot_iff (p x : Str) :
    GlobM ('.' :: p) x ↔
      ∃ c t, x = c :: t ∧ jsDotChar c = true ∧ GlobM p t := by
  constructor
  · intro h
    cases h with
    | dot c t hd hg => exact ⟨c, t, rfl, hd, hg⟩
    | lit c t hc hc2 hg => exact absurd rfl hc2
  · rintro ⟨c, t, rfl, hd, hg⟩
    exact GlobM.dot c t hd hg

/-- Inversion for a leading literal character. -/
theorem globM_lit_iff (c : Char) (p x : Str) (hc : c ≠ '*') (hc2 : c ≠ '.') :
    GlobM (c :: p) x ↔ ∃ t, x = c :: t ∧ GlobM p t := by
  constructor
  · intro h
    cases h with
    | star s t hdot hg => exact absurd rfl hc
    | dot c' t hd hg => exact absurd rfl hc2
    | lit c' t h1 h2 hg => exact ⟨t, rfl, hg⟩
  · rintro ⟨t, rfl, hg⟩
    exact GlobM.lit c t hc hc2 hg

/-- Membership in a class-then-rest sequence. -/
theorem seq_cls_mem (cs : Str) (q : Char → Bool) (r : Regex) (i j : Nat) :
    j ∈ reMatch cs (.seq (.cls q) r) i ↔
      ∃ c, charAt cs i = some c ∧ q c = true ∧ j ∈ reMatch cs r (i + 1) := by
  show j ∈ ((reMatch cs (.cls q) i).flatMap (reMatch cs r)).dedup ↔ _
  rw [List.mem_dedup, List.mem_flatMap]
  cases hc : charAt cs i with
  | none => simp [reMatch, hc]
  | some c =>
    by_cases hq : q c = true
    · simp [reMatch, hc, hq]
    · simp [reMatch, hc, hq]

/-- The compiled ignore regex matches a slice exactly when the wildcard
relation does: `*` consumes any run of ordinary characters, `.` consumes
one, and other characters match themselves. -/
theorem reMatch_compileIgnore (p : Str) :
    ∀ (cs : Str) (i j : Nat), i ≤ cs.length →
      (j ∈ reMatch cs (compileIgnore p) i ↔
        (i ≤ j ∧ j ≤ cs.length ∧ GlobM p (strSlice cs i j))) := by
  induction p with
  | nil =>
    intro cs i j hi
    rw [show compileIgnore [] = Regex.eps from rfl]
    show j ∈ [i] ↔ _
    simp only [List.mem_singleton]
    constructor
    · rintro rfl
      refine ⟨Nat.le_refl _, hi, ?_⟩
      rw [strSlice_self]
      exact GlobM.nil
    · rintro ⟨hij, hj, hg⟩
      have hs : strSlice cs i j = [] := (globM_nil_iff _).mp hg
      have hl := strSlice_length cs i j hij hj
      rw [hs] at hl
      simp only [List.length_nil] at hl
      omega
  | cons c p ih =>
    intro cs i j hi
    by_cases hstar : c = '*'
    · subst hstar
      rw [show compileIgnore ('*' :: p) = .seq (.star jsDotChar) (compileIgnore p) from by
        rw [compileIgnore]; rw [if_pos rfl]]
      show j ∈ ((reMatch cs (.star jsDotChar) i).flatMap (reMatch cs (compileIgnore p))).dedup ↔ _
      rw [List.mem_dedup, List.mem_flatMap]
      constructor
      · rintro ⟨k, hk, hjk⟩
        rw [show reMatch cs (.star jsDotChar) i = starPos jsDotChar (cs.drop i) i from rfl] at hk
        obtain ⟨m, hm, rfl, hdot⟩ := (starPos_mem _ _ _ _).mp hk
        rw [List.length_drop] at hm
        have hkl : i + m ≤ cs.length := by omega
        obtain ⟨hkj, hjl, hg⟩ := (ih cs (i + m) j hkl).mp hjk
        refine ⟨by omega, hjl, ?_⟩
        rw [strSlice_append cs i (i + m) j (by omega) hkj, globM_star_iff]
        refine ⟨strSlice cs i (i + m), strSlice cs (i + m) j, rfl, ?_, hg⟩
        rw [show strSlice cs i (i + m) = (cs.drop i).take m from by
          unfold strSlice; congr 1; omega]
        exact hdot
      · rintro ⟨hij, hjl, hg⟩
        rw [globM_star_iff] at hg
        obtain ⟨s, t, heq, hdot, hgt⟩ := hg
        have hsl := strSlice_length cs i j hij hjl
        rw [heq, List.length_append] at hsl
        have hk : i + s.length ≤ j := by omega
        have hseq : strSlice cs i j =
            strSlice cs i (i + s.length) ++ strSlice cs (i + s.length) j :=
          strSlice_append cs i (i + s.length) j (by omega) hk
        have hlenA : s.length = (strSlice cs i (i + s.length)).length := by
          rw [strSlice_length cs i (i + s.length) (by omega) (by omega)]
          omega
        obtain ⟨hsA, htB⟩ := List.append_inj (heq.symm.trans hseq) hlenA
        refine ⟨i + s.length, ?_, ?_⟩
        · rw [show reMatch cs (.star jsDotChar) i = starPos jsDotChar (cs.drop i) i from rfl]
          apply (starPos_mem _ _ _ _).mpr
          refine ⟨s.length, ?_, rfl, ?_⟩
          · rw [List.length_drop]
            omega
          · have hA' : strSlice cs i (i + s.length) = (cs.drop i).take s.length := by
              unfold strSlice
              congr 1
              omega
            rw [hA'] at hsA
            intro x hx
            apply hdot
            rw [hsA]
            exact hx
        · apply (ih cs (i + s.length) j (by omega)).mpr
          refine ⟨hk, hjl, ?_⟩
          rw [← htB]
          exact hgt
    · by_cases hdotc : c = '.'
      · subst hdotc
        rw [show compileIgnore ('.' :: p) = .seq (.cls jsDotChar) (compileIgnore p) from by
          rw [compileIgnore]; rw [if_neg (by decide), if_pos rfl]]
        rw [seq_cls_mem]
        constructor
        · rintro ⟨ch, hch, hdq, hj⟩
          have hi1 : i + 1 ≤ cs.length := charAt_lt cs i ch hch
          obtain ⟨hij, hjl, hg⟩ := (ih cs (i + 1) j hi1).mp hj
          refine ⟨by omega, hjl, ?_⟩
          rw [strSlice_cons cs i j ch hch (by omega), globM_dot_iff]
          exact ⟨ch, _, rfl, hdq, hg⟩
        · rintro ⟨hij, hjl, hg⟩
          rw [globM_dot_iff] at hg
          obtain ⟨ch, t, hslice, hdq, hgt⟩ := hg
          have hlen := strSlice_length cs i j hij hjl
          rw [hslice] at hlen
          simp only [List.length_cons] at hlen
          have hij' : i < j := by omega
          have hi' : i < cs.length := by
            by_contra hcon
            have : cs.drop i = [] := List.drop_eq_nil_of_le (by omega)
            have h2 : strSlice cs i j = [] := by unfold strSlice; rw [this]; simp
            rw [hslice] at h2
            cases h2
          obtain ⟨c0, hc0⟩ : ∃ c0, charAt cs i = some c0 := by
            unfold charAt
            exact ⟨cs[i], List.getElem?_eq_some.mpr ⟨hi', rfl⟩⟩
          have hcons := strSlice_cons cs i j c0 hc0 hij'
          rw [hcons] at hslice
          injection hslice with hch ht
          refine ⟨c0, hc0, by rw [← hch] at hdq; exact hdq, ?_⟩
          apply (ih cs (i + 1) j (by omega)).mpr
          exact ⟨by omega, hjl, by rw [← ht] at hgt; exact hgt⟩
      · rw [show compileIgnore (c :: p) = .seq (.cls (fun d => d = c)) (compileIgnore p) from by
          rw [compileIgnore]; rw [if_neg hstar, if_neg hdotc]]
        rw [seq_cls_mem]
        constructor
        · rintro ⟨ch, hch, hdq, hj⟩
          have hcc : ch = c := by simpa using hdq
          subst hcc
          have hi1 : i + 1 ≤ cs.length := charAt_lt cs i ch hch
          obtain ⟨hij, hjl, hg⟩ := (ih cs (i + 1) j hi1).mp hj
          refine ⟨by omega, hjl, ?_⟩
          rw [strSlice_cons cs i j ch hch (by omega), globM_lit_iff ch p _ hstar hdotc]
          exact ⟨_, rfl, hg⟩
        · rintro ⟨hij, hjl, hg⟩
          rw [globM_lit_iff c p _ hstar hdotc] at hg
          obtain ⟨t, hslice, hgt⟩ := hg
          have hlen := strSlice_length cs i j hij hjl
          rw [hslice] at hlen
          simp only [List.length_cons] at hlen
          have hij' : i < j := by omega
          have hi' : i < cs.length := by
            by_contra hcon
            have hd : cs.drop i = [] := List.drop_eq_nil_of_le (by omega)
            have hsl : strSlice cs i j = [] := by unfold strSlice; rw [hd]; simp
            rw [hslice] at hsl
            cases hsl
          obtain ⟨c0, hc0⟩ : ∃ c0, charAt cs i = some c0 := by
            unfold charAt
            exact ⟨cs[i], List.getElem?_eq_some.mpr ⟨hi', rfl⟩⟩
          have hcons := strSlice_cons cs i j c0 hc0 hij'
          rw [hcons] at hslice
          injection hslice with hch ht
          refine ⟨c0, hc0, by simp [hch], ?_⟩
          apply (ih cs (i + 1) j (by omega)).mpr
          exact ⟨by omega, hjl, by rw [← ht] at hgt; exact hgt⟩

/-- The unanchored compiled-regex test coincides with unanchored wildcard
matching. -/
theorem unanchTest_glob (p rel : Str) :
    unanchTest (compileIgnore p) rel = true ↔ GlobU p rel := by
  unfold unanchTest GlobU
  rw [List.any_eq_true]
  constructor
  · rintro ⟨i, hi, hne⟩
    have hi' : i ≤ rel.length := by
      have := List.mem_range.mp hi
      omega
    have hnonempty : reMatch rel (compileIgnore p) i ≠ [] := by
      intro hemp
      rw [hemp] at hne
      simp at hne
    obtain ⟨j, hj⟩ := List.exists_mem_of_ne_nil _ hnonempty
    obtain ⟨hij, hjl, hg⟩ := (reMatch_compileIgnore p rel i j hi').mp hj
    refine ⟨rel.take i, strSlice rel i j, rel.drop j, ?_, hg⟩
    have hsplit : strSlice rel i j ++ rel.drop j = rel.drop i := by
      unfold strSlice
      rw [show rel.drop j = (rel.drop i).drop (j - i) from by
        rw [List.drop_drop, show i + (j - i) = j from by omega]]
      exact List.take_append_drop (j - i) (rel.drop i)
    rw [List.append_assoc, hsplit, List.take_append_drop]
  · rintro ⟨u, v, w, rfl, hg⟩
    refine ⟨u.length, ?_, ?_⟩
    · rw [List.mem_range]
      simp [List.length_append]
      omega
    · have hslice : strSlice (u ++ v ++ w) u.length (u.length + v.length) = v := by
        unfold strSlice
        rw [show (u ++ v ++ w : Str) = u ++ (v ++ w) from by rw [List.append_assoc]]
        rw [List.drop_left, show u.length + v.length - u.length = v.length from by omega]
        exact List.take_left v w
      have hj := (reMatch_compileIgnore p (u ++ v ++ w) u.length (u.length + v.length)
        (by simp [List.length_append])).mpr
        ⟨by omega, by simp [List.length_append], by rw [hslice]; exact hg⟩
      cases hre : reMatch (u ++ v ++ w) (compileIgnore p) u.length with
      | nil => rw [hre] at hj; cases hj
      | cons a as => simp [hre]

/-- The prefix test of paths as an explicit decomposition. -/
theorem isPrefixOf_iff_exists (p l : Str) : p.isPrefixOf l = true ↔ ∃ t, l = p ++ t := by
  induction p generalizing l with
  | nil =>
    simp [List.isPrefixOf]
  | cons c p ih =>
    cases l with
    | nil =>
      constructor
      · intro h
        cases h
      · rintro ⟨t, ht⟩
        cases ht
    | cons d l' =>
      show (c == d && p.isPrefixOf l') = true ↔ _
      rw [Bool.and_eq_true, beq_iff_eq, ih]
      constructor
      · rintro ⟨rfl, t, rfl⟩
        exact ⟨t, rfl⟩
      · rintro ⟨t, ht⟩
        injection ht with h1 h2
        exact ⟨h1.symm, t, h2⟩

/-- The substring test as an explicit decomposition. -/
theorem jsIncludes_iff (hay nd : Str) :
    jsIncludes hay nd = true ↔ ∃ u v, hay = u ++ nd ++ v := by
  unfold jsIncludes
  rw [List.any_eq_true]
  constructor
  · rintro ⟨i, _, hp⟩
    rw [isPrefixOf_iff_exists] at hp
    obtain ⟨t, hdrop⟩ := hp
    refine ⟨hay.take i, t, ?_⟩
    rw [List.append_assoc, ← hdrop, List.take_append_drop]
  · rintro ⟨u, v, rfl⟩
    refine ⟨u.length, ?_, ?_⟩
    · rw [List.mem_range]
      simp only [List.length_append]
      omega
    · rw [isPrefixOf_iff_exists]
      refine ⟨v, ?_⟩
      rw [show (u ++ nd ++ v : Str) = u ++ (nd ++ v) from by rw [List.append_assoc],
        List.drop_left]

/-- One ignore pattern matches a relative path exactly per the amended
three-rule specification. -/
theorem ignoreMatched_iff (rel p : Str) :
    ignoreMatched rel p = true ↔ specIgnoreRule p rel := by
  unfold ignoreMatched specIgnoreRule
  by_cases h1 : p.getLast? = some '/'
  · rw [if_pos h1, if_pos h1, Bool.or_eq_true, isPrefixOf_iff_exists, jsIncludes_iff]
  · rw [if_neg h1, if_neg h1]
    by_cases h2 : '*' ∈ p
    · rw [if_pos (List.elem_iff.mpr h2), if_pos h2]
      exact unanchTest_glob p rel
    · rw [if_neg (fun hc => h2 (List.elem_iff.mp hc)), if_neg h2, Bool.or_eq_true,
        jsIncludes_iff, decide_eq_true_eq]

/-- C9 counterexample. The claim's wildcard rule reads all non-`*`
characters literally and its third rule requires a whole path segment,
but the source compiles the wildcard pattern to a JavaScript regex where
`.` matches any character, and its third rule only requires the pattern
to follow a `/`. Pattern `*.log` ignores relative path `xlog`, and
pattern `build` ignores relative path `src/buildx`, though the claim's
rules match neither. -/
theorem c9_counterexample :
    (shouldIgnore "/r/xlog".data "/r".data ["*.log".data] = true ∧
      claimIgnoreRule "*.log".data "xlog".data = false) ∧
    (shouldIgnore "/r/src/buildx".data "/r".data ["build".data] = true ∧
      claimIgnoreRule "build".data "src/buildx".data = false) := by
  refine ⟨⟨?_, ?_⟩, ?_, ?_⟩ <;> decide

/-- C9 amended. Over patterns built from ordinary path characters (the
fragment on which the JavaScript regex compilation is modelled), a path
is ignored exactly when some pattern matches its root-relative form by
one of three rules: a trailing-`/` pattern as a prefix or after a `/`; a
pattern containing `*` by wildcard matching where `*` matches any
substring and `.` matches any single character; any other pattern by
equality or occurrence after a `/`. Blank lines and `#` lines of the
ignore file contribute no patterns: every parsed pattern is a non-blank,
non-comment trimmed line. -/
theorem c9_ignore_rules (filePath rootPath : Str) (patterns : List Str)
    (hsafe : ∀ p ∈ patterns, '*' ∈ p → ∀ c ∈ p, ignSafeChar c = true) :
    (shouldIgnore filePath rootPath patterns = true ↔
      ∃ p ∈ patterns, specIgnoreRule p (relOf filePath rootPath)) ∧
    (∀ (t q : Str), q ∈ parseGitignore t →
      q ≠ [] ∧ ¬ ("#".data.isPrefixOf q = true) ∧ ∃ line ∈ splitLines t, q = jsTrim line) := by
  constructor
  · unfold shouldIgnore
    rw [List.any_eq_true]
    constructor
    · rintro ⟨p, hp, hm⟩
      exact ⟨p, hp, (ignoreMatched_iff _ p).mp hm⟩
    · rintro ⟨p, hp, hm⟩
      exact ⟨p, hp, (ignoreMatched_iff _ p).mpr hm⟩
  · intro t q hq
    unfold parseGitignore at hq
    rw [List.mem_filter] at hq
    obtain ⟨hq1, hq2⟩ := hq
    rw [Bool.and_eq_true, Bool.not_eq_true', Bool.not_eq_true'] at hq2
    obtain ⟨hne, hhash⟩ := hq2
    refine ⟨?_, ?_, ?_⟩
    · intro hnil
      rw [hnil] at hne
      cases hne
    · rw [hhash]
      simp
    · obtain ⟨line, hline, hq⟩ := List.mem_map.mp hq1
      exact ⟨line, hline, hq.symm⟩

/-- C9 witness: the rule equivalence instantiated at a safe wildcard
pattern and a concrete matching path. -/
theorem c9_witness :
    (shouldIgnore "/r/a.log".data "/r".data ["*.log".data] = true ↔
      ∃ p ∈ ["*.log".data], specIgnoreRule p (relOf "/r/a.log".data "/r".data)) ∧
    shouldIgnore "/r/a.log".data "/r".data ["*.log".data] = true :=
  ⟨(c9_ignore_rules "/r/a.log".data "/r".data ["*.log".data] (by decide)).1, by decide⟩

/-- C10 witness: the group `auth` of the query `[auth]&[b:y]` has an
empty alternatives list, and the query matches no tag set under its AND
combinator. -/
theorem c10_witness :
    (scopeOfContent "auth".data).tags = [] ∧
    matchesQuery [("b".data, ["y".data])] (parseQuery "[auth]&[b:y]".data).scopes
      (parseQuery "[auth]&[b:y]".data).operator = false := by
  have h := c10_empty_group_matches_nothing "[auth]&[b:y]".data "auth".data (by decide)
    (Or.inl (by decide))
  exact ⟨h.1, h.2.2.2 [("b".data, ["y".data])] (by decide)⟩

end SCReader


